import Mathlib

/-!
Verification development for the EduGen backend syllabus parsers
(`src/server.js`).  Strings are modelled as `List Char`; the JavaScript
regular-expression operations used by the parsers are embedded as
executable scanners over character lists, and the two parsers
(`parseOBCSyllabus`, `parseCBCSyllabusTable`) as pure state-machine folds.
-/

namespace EduGen

abbrev Str := List Char

/-- The character class matched by JavaScript `\s` (the subset relevant to
these inputs) and removed by `String.prototype.trim`. -/
def jsWS (c : Char) : Bool :=
  c = ' ' || c = '\t' || c = '\n' || c = '\r' || c = '\x0b' || c = '\x0c'

def trimL (s : Str) : Str := s.dropWhile jsWS

def trimR (s : Str) : Str := (s.reverse.dropWhile jsWS).reverse

/-- JavaScript `String.prototype.trim`. -/
def trim (s : Str) : Str := trimR (trimL s)

/-- Split on `'\n'` (JavaScript `text.split('\n')`). -/
def splitNl : Str → List Str
  | [] => [[]]
  | '\n' :: rest => [] :: splitNl rest
  | c :: rest =>
    match splitNl rest with
    | [] => [[c]]
    | h :: t => (c :: h) :: t

/-- Join lines with `'\n'` between them. -/
def joinNl : List Str → Str
  | [] => []
  | [l] => l
  | l :: ls => l ++ '\n' :: joinNl ls

/-- `.split('\n').map(l => l.trim()).filter(Boolean)`. -/
def cleanLines (s : Str) : List Str :=
  ((splitNl s).map trim).filter (fun l => !l.isEmpty)

/-- `text.replace(/\r/g, '\n')`. -/
def crnl (s : Str) : Str := s.map (fun c => if c = '\r' then '\n' else c)

/-- Worker for `collapse`: the flag records whether we are inside a run of
newlines (whose first newline has already been emitted). -/
def collapseGo : Bool → Str → Str
  | _, [] => []
  | inRun, c :: rest =>
    if c = '\n' then
      if inRun then collapseGo true rest else '\n' :: collapseGo true rest
    else c :: collapseGo false rest

/-- `text.replace(/\n{2,}/g, '\n')`: every maximal run of newlines is
replaced by a single newline (a run of length one is untouched). -/
def collapse (s : Str) : Str := collapseGo false s

/-- `text.replace(/[•]/g, '•')` — the identity substitution present in the
source. -/
def bulletFix (s : Str) : Str := s.map (fun c => if c = '•' then '•' else c)

/-! ### The hierarchy-numbering token of `parseOBCSyllabus`

`/((10|11|12)\.\d+(\.\d+){0,2})/` : a valid-range leading pair followed by
one mandatory and up to two further greedy `.digits` chunks. -/

/-- Length of a greedy `\.\d+` match at the head of `s`, if any. -/
def dotLen : Str → Option Nat
  | c :: rest =>
    if c = '.' then
      if (rest.takeWhile Char.isDigit).length = 0 then none
      else some ((rest.takeWhile Char.isDigit).length + 1)
    else none
  | [] => none

/-- Greedy match length of `(10|11|12)\.\d+(\.\d+){0,2}` at the head of
`s`, if any (the scan of the global replace tries this at every
position). -/
def matchTok (s : Str) : Option Nat :=
  match s with
  | c :: d :: rest =>
    if c = '1' && (d = '0' || d = '1' || d = '2') then
      match dotLen rest with
      | none => none
      | some n1 =>
        match dotLen (rest.drop n1) with
        | none => some (2 + n1)
        | some n2 =>
          match dotLen (rest.drop (n1 + n2)) with
          | none => some (2 + n1 + n2)
          | some n3 => some (2 + n1 + n2 + n3)
    else none
  | _ => none

/-- Worker for the global replace `.replace(tokenRe, '\n$1')`: a newline is
inserted before every match, the match itself is kept, and scanning
resumes after the match (`skip` counts the still-to-copy matched
characters). -/
def scanGo : Nat → Str → Str
  | _, [] => []
  | k + 1, c :: rest => c :: scanGo k rest
  | 0, c :: rest =>
    match matchTok (c :: rest) with
    | some L => '\n' :: c :: scanGo (L - 1) rest
    | none => c :: scanGo 0 rest

/-- `text.replace(/((10|11|12)\.\d+(\.\d+){0,2})/g, '\n$1')`. -/
def scanBreaks (s : Str) : Str := scanGo 0 s

/-- The Normalizer stage of `parseOBCSyllabus` (lines 281–291 of
`server.js`): carriage-return canonicalisation, blank-line collapsing, the
identity bullet substitution, newline insertion before valid-range
numbering tokens, then trim-split into non-empty lines. -/
def normLines (rawText : Str) : List Str :=
  cleanLines (scanBreaks (bulletFix (collapse (crnl rawText))))

/-! ### Analysis of the token matcher -/

def digitStart : Str → Bool
  | c :: _ => c.isDigit
  | [] => false

def dotDigitStart : Str → Bool
  | c :: d :: _ => c = '.' && d.isDigit
  | _ => false

def dotCount (t : Str) : Nat := (t.filter (fun c => c = '.')).length

/-- A greedy token match covering `t` cannot be extended into `r`. -/
def stopOk (t r : Str) : Prop :=
  digitStart r = false ∧ (dotCount t = 3 ∨ dotDigitStart r = false)

/-- The first `'\n'`-free segment of a string. -/
def firstPiece (s : Str) : Str := s.takeWhile (fun c => !(c = '\n' : Bool))

/-! ### Line stability under rescanning -/

/-- Rescanning the line either re-inserts its leading break or leaves it
unchanged; in both cases the trim-split recovers the line. -/
def lineStable (l : Str) : Prop := scanGo 0 l = '\n' :: l ∨ scanGo 0 l = l

/-! ### The OBC line-based parser (`parseOBCSyllabus`, server.js 279-382) -/

/-- `/^((10|11|12)(\.\d+){1,3})$/.test(line)`: the whole line is a
valid-range numbering token (2 to 4 dot-separated segments). -/
def numberOnly (l : Str) : Bool := decide (matchTok l = some l.length)

/-- `line.match(/^((10|11|12)(\.\d+){1,3})\s*(.*)$/)`, returning the
numbering token and the trailing text. -/
def extract (l : Str) : Option (Str × Str) :=
  (matchTok l).map (fun L => (l.take L, (l.drop L).dropWhile jsWS))

def lowerStr (s : Str) : Str := s.map Char.toLower

/-- `/^topic$|^sub\s*topic$|^specific outcomes?$|^content$/i.test(line)`. -/
def isHeaderLine (l : Str) : Bool :=
  let w := lowerStr l
  decide (w = ['t','o','p','i','c']) ||
    (decide (w.take 3 = ['s','u','b']) &&
      decide ((w.drop 3).dropWhile jsWS = ['t','o','p','i','c'])) ||
    decide (w = ['s','p','e','c','i','f','i','c',' ','o','u','t','c','o','m','e']) ||
    decide (w = ['s','p','e','c','i','f','i','c',' ','o','u','t','c','o','m','e','s']) ||
    decide (w = ['c','o','n','t','e','n','t'])

/-- `number.split('.').length`: for a dot-separated string this is the
number of `'.'` occurrences plus one. -/
def segCount (s : Str) : Nat := dotCount s + 1

structure OSubtopic where
  name : Str
  specificOutcomes : List Str
  knowledge : List Str
  skills : List Str
  values : List Str
deriving Repr, DecidableEq

structure OTopic where
  name : Str
  subtopics : List OSubtopic
deriving Repr, DecidableEq

/-- Mutation through the `currentTopic`/`currentSubtopic` aliases always
targets the most recently appended topic (and its most recently appended
subtopic), so the aliased state is modelled by two liveness flags plus
update-in-place of the last element. -/
structure OState where
  topics : List OTopic
  hasCT : Bool
  hasCS : Bool
  pending : Option Str
deriving Repr, DecidableEq

def updateLast : List α → (α → α) → List α
  | [], _ => []
  | [a], f => [f a]
  | a :: rest, f => a :: updateLast rest f

inductive Bucket
  | values
  | skills
  | knowledge
deriving Repr, DecidableEq

/-- The keyword classifier of server.js lines 358-370 (first match wins:
values before skills before the knowledge default). -/
def obcClassify (content : Str) : Bucket :=
  let lower := lowerStr content
  if ['a','p','p','r','e','c','i','a','t'].isPrefixOf lower ||
      ['v','a','l','u','e'].isPrefixOf lower then Bucket.values
  else if ['m','e','a','s','u','r','e'].isPrefixOf lower ||
      ['c','a','l','c','u','l','a','t','e'].isPrefixOf lower ||
      ['d','e','m','o','n','s','t','r','a','t','e'].isPrefixOf lower then Bucket.skills
  else Bucket.knowledge

def pushBucket (s : OSubtopic) (b : Bucket) (content : Str) : OSubtopic :=
  match b with
  | Bucket.values => { s with values := s.values ++ [content] }
  | Bucket.skills => { s with skills := s.skills ++ [content] }
  | Bucket.knowledge => { s with knowledge := s.knowledge ++ [content] }

/-- `line.replace(/^[-•]\s*/, '')`. -/
def stripBullet (line : Str) : Str :=
  match line with
  | c :: rest => if c = '-' || c = '•' then rest.dropWhile jsWS else line
  | [] => []

/-- `line.startsWith('•') || line.startsWith('-')`. -/
def bulletStart (line : Str) : Bool :=
  match line with
  | c :: _ => c = '•' || c = '-'
  | [] => false

/-- One iteration of the `for (const line of lines)` loop of
`parseOBCSyllabus` (server.js lines 306-372), in source order: header
denylist, pure-number line, extract / pending-number merge, the three
level branches, then the (unreachable) bullet-content classifier. -/
def obcLine (st : OState) (line : Str) : OState :=
  if isHeaderLine line then st
  else if numberOnly line then { st with pending := some line }
  else
    let ep : Option (Str × Str) × Option Str :=
      match extract line, st.pending with
      | some p, pd => (some p, pd)
      | none, some n => (some (n, line), none)
      | none, none => (none, none)
    match ep with
    | (none, pd) => { st with pending := pd }
    | (some (num, txt), pd) =>
      let st1 : OState := { st with pending := pd }
      let fullText := trim (num ++ ' ' :: txt)
      if segCount num = 2 then
        { st1 with topics := st1.topics ++ [⟨fullText, []⟩],
                   hasCT := true, hasCS := false }
      else if segCount num = 3 ∧ st1.hasCT then
        let newTopics := updateLast st1.topics
          (fun tp => { tp with subtopics := tp.subtopics ++ [⟨fullText, [], [], [], []⟩] })
        { st1 with topics := newTopics, hasCS := true }
      else if segCount num = 4 ∧ st1.hasCS then
        let newTopics := updateLast st1.topics
          (fun tp => { tp with subtopics := (updateLast tp.subtopics
            (fun sb => { sb with specificOutcomes := sb.specificOutcomes ++ [fullText] })) })
        { st1 with topics := newTopics }
      else if st1.hasCS ∧ bulletStart line then
        let content := trim (stripBullet line)
        if content.length < 3 then st1
        else
          let newTopics := updateLast st1.topics
            (fun tp => { tp with subtopics := (updateLast tp.subtopics
              (fun sb => pushBucket sb (obcClassify content) content)) })
          { st1 with topics := newTopics }
      else st1

def initOState : OState := ⟨[], false, false, none⟩

structure OBCResult where
  subject : Str
  curriculumType : Str
  form : Str
  topics : List OTopic
deriving Repr, DecidableEq

/-- The Topic sequence accumulated by the full line loop. -/
def obcTopics (rawText : Str) : List OTopic :=
  ((normLines rawText).foldl obcLine initOState).topics

/-- `parseOBCSyllabus(rawText, subject)` (server.js lines 279-382). -/
def parseOBCSyllabus (rawText subject : Str) : Option OBCResult :=
  if (obcTopics rawText).isEmpty then none
  else some ⟨subject, ['o','b','c'], ['G','r','a','d','e',' ','1','0'], obcTopics rawText⟩

/-! ### The CBC table parser (`parseCBCSyllabusTable`, server.js 141-274)

The cheerio DOM traversal (`$('table tr')`, `find('td, th')`, `.html()`)
delivers, for each table row, the list of its cells' inner-HTML strings
(`null` becoming `''`).  The embedding therefore takes the table as a
`List (List Str)` of rows of cell HTML and models everything from
server.js line 180 (`if (cells.length < 2) return`) onwards, together
with the text helpers `extractText`, `splitBulletContent`,
`getNumberingInfo` and `isHeaderRow` they call. -/

/-- Match of `/<br\s*\/?>/i` at the start of the string (length consumed). -/
def brLen : Str → Option Nat
  | '<' :: c1 :: c2 :: rest =>
    if (c1 = 'b' || c1 = 'B') && (c2 = 'r' || c2 = 'R') then
      let w := rest.takeWhile jsWS
      match rest.drop w.length with
      | '/' :: '>' :: _ => some (3 + w.length + 2)
      | '>' :: _ => some (3 + w.length + 1)
      | _ => none
    else none
  | _ => none

/-- Match of `/<li>/i` at the start of the string. -/
def liOpenLen : Str → Option Nat
  | '<' :: c1 :: c2 :: '>' :: _ =>
    if (c1 = 'l' || c1 = 'L') && (c2 = 'i' || c2 = 'I') then some 4 else none
  | _ => none

/-- Match of `/<\/li>/i` at the start of the string. -/
def liCloseLen : Str → Option Nat
  | '<' :: '/' :: c1 :: c2 :: '>' :: _ =>
    if (c1 = 'l' || c1 = 'L') && (c2 = 'i' || c2 = 'I') then some 5 else none
  | _ => none

/-- Match of `/<[^>]+>/` at the start of the string. -/
def tagLen : Str → Option Nat
  | '<' :: rest =>
    let w := rest.takeWhile (fun c => !(c = '>' : Bool))
    if w.isEmpty then none
    else
      match rest.drop w.length with
      | '>' :: _ => some (1 + w.length + 1)
      | _ => none
  | _ => none

/-- Global leftmost non-overlapping replacement: wherever `f` reports a
match (always of positive length), emit `rep` and resume after the match.
The fuel argument is initialised with the string length. -/
def scanRepl (f : Str → Option Nat) (rep : Str) : Nat → Str → Str
  | _, [] => []
  | 0, s => s
  | n + 1, c :: rest =>
    match f (c :: rest) with
    | some L => rep ++ scanRepl f rep n ((c :: rest).drop L)
    | none => c :: scanRepl f rep n rest

/-- `.replace(/pat/g, rep)` for a fixed (non-empty) pattern string. -/
def replaceAllStr (pat rep s : Str) : Str :=
  scanRepl (fun t => if pat.isPrefixOf t then some pat.length else none) rep s.length s

def brToNl (s : Str) : Str := scanRepl brLen ['\n'] s.length s

/-- `.replace(/<li>/gi, '\n•').replace(/<\/li>/gi, '')`. -/
def liFix (s : Str) : Str :=
  let t := scanRepl liOpenLen ['\n', '•'] s.length s
  scanRepl liCloseLen [] t.length t

/-- `.replace(/<[^>]+>/g, '')`. -/
def stripTags (s : Str) : Str := scanRepl tagLen [] s.length s

/-- The six HTML-entity replacements, applied in source order. -/
def entityDecode (s : Str) : Str :=
  replaceAllStr ['&', '#', '3', '9', ';'] ['\x27']
    (replaceAllStr ['&', 'q', 'u', 'o', 't', ';'] ['"']
      (replaceAllStr ['&', 'g', 't', ';'] ['>']
        (replaceAllStr ['&', 'l', 't', ';'] ['<']
          (replaceAllStr ['&', 'a', 'm', 'p', ';'] ['&']
            (replaceAllStr ['&', 'n', 'b', 's', 'p', ';'] [' '] s)))))

/-- `extractText(html)` (server.js lines 59-71). -/
def extractText (html : Str) : Str :=
  if html.isEmpty then []
  else trim (entityDecode (stripTags (brToNl html)))

def isBulletChar (c : Char) : Bool := c = '•' || c = '-' || c = '▪' || c = '◦'

/-- `.split(/\n|(?=[•\-▪◦])/)` with JavaScript split semantics: a newline is
a consumed separator; a bullet character starts a new piece via zero-width
lookahead unless it sits exactly at the previous split position (in which
case the empty match is skipped).  The accumulator holds the current piece
reversed. -/
def splitBulletsGo : Str → Str → List Str
  | cur, [] => [cur.reverse]
  | cur, c :: rest =>
    if c = '\n' then cur.reverse :: splitBulletsGo [] rest
    else if isBulletChar c then
      if cur.isEmpty then splitBulletsGo [c] rest
      else cur.reverse :: splitBulletsGo [c] rest
    else splitBulletsGo (c :: cur) rest

def splitBullets (s : Str) : List Str := splitBulletsGo [] s

/-- `item.replace(/^[•\-▪◦]\s*/, '')`. -/
def stripBulletCBC (s : Str) : Str :=
  match s with
  | c :: rest => if isBulletChar c then rest.dropWhile jsWS else s
  | [] => []

/-- `splitBulletContent(html)` (server.js lines 74-95). -/
def splitBulletContent (html : Str) : List Str :=
  if html.isEmpty then []
  else
    ((splitBullets (entityDecode (stripTags (liFix (brToNl html))))).map
      (fun item => trim (stripBulletCBC item))).filter
      (fun item => decide (2 < item.length))

/-- Match of `/^(\d+\.\d+(?:\.\d+)?(?:\.\d+)?)/`: one or more digits, then
one mandatory and up to two optional greedy `\.\d+` chunks; returns the
length of the matched numbering token. -/
def numLen (s : Str) : Option Nat :=
  let d := s.takeWhile Char.isDigit
  if d.isEmpty then none
  else
    match dotLen (s.drop d.length) with
    | none => none
    | some n1 =>
      match dotLen (s.drop (d.length + n1)) with
      | none => some (d.length + n1)
      | some n2 =>
        match dotLen (s.drop (d.length + n1 + n2)) with
        | none => some (d.length + n1 + n2)
        | some n3 => some (d.length + n1 + n2 + n3)

structure NumInfo where
  level : Nat
  number : Option Str
  content : Str
deriving Repr, DecidableEq

/-- `getNumberingInfo(text)` (server.js lines 98-114): `level` is the
dot-segment count of the matched token, `content` keeps the full text. -/
def getNumberingInfo (text : Str) : NumInfo :=
  if text.isEmpty then ⟨0, none, text⟩
  else
    match numLen text with
    | none => ⟨0, none, text⟩
    | some L => ⟨segCount (text.take L), some (text.take L), text⟩

/-- `hay.includes(needle)`. -/
def containsStr (hay needle : Str) : Bool :=
  (List.range (hay.length + 1)).any (fun i => needle.isPrefixOf (hay.drop i))

/-- `cells.join(' ')`. -/
def joinSp : List Str → Str
  | [] => []
  | [l] => l
  | l :: ls => l ++ ' ' :: joinSp ls

/-- `isHeaderRow(cells)` (server.js lines 117-127). -/
def isHeaderRow (cells : List Str) : Bool :=
  let combined := lowerStr (joinSp cells)
  (containsStr combined ['t','o','p','i','c'] &&
      containsStr combined ['s','u','b']) ||
    containsStr combined
      ['s','p','e','c','i','f','i','c',' ','c','o','m','p','e','t','e','n','c','e'] ||
    containsStr combined
      ['s','p','e','c','i','f','i','c','c','o','m','p','e','t','e','n','c','e'] ||
    containsStr combined
      ['l','e','a','r','n','i','n','g',' ','a','c','t','i','v','i','t'] ||
    containsStr combined
      ['e','x','p','e','c','t','e','d',' ','s','t','a','n','d','a','r','d'] ||
    containsStr combined
      ['e','x','p','e','c','t','e','d','s','t','a','n','d','a','r','d']

structure CComp where
  description : Str
  learningActivities : List Str
  expectedStandards : List Str
deriving Repr, DecidableEq

structure CSub where
  name : Str
  specificCompetences : List CComp
deriving Repr, DecidableEq

structure CTopic where
  name : Str
  subtopics : List CSub
deriving Repr, DecidableEq

/-- `currentTopic` / `currentSubtopic` are object references into the
`topics` array; since topics and subtopics are only ever appended, they
are modelled by stable indices (`ct` an index into `topics`, `cs` a pair
of a topic index and a subtopic index).  A reused topic can leave `cs`
pointing into a topic other than `ct`. -/
structure CState where
  topics : List CTopic
  ct : Option Nat
  cs : Option (Nat × Nat)
deriving Repr, DecidableEq

def initCState : CState := ⟨[], none, none⟩

def updAt : List α → Nat → (α → α) → List α
  | [], _, _ => []
  | a :: l, 0, f => f a :: l
  | a :: l, n + 1, f => a :: updAt l n f

/-- The signal loop of server.js lines 180-191: the running `else if`
chain over the cells, tracking `foundTopic`, `foundSubtopic`,
`foundCompetence` and `competenceIndex`. -/
def cbcScan : List Str → Nat → Option Str → Option Str → Option Str → Option Nat →
    Option Str × Option Str × Option Str × Option Nat
  | [], _, ft, fs, fc, ci => (ft, fs, fc, ci)
  | t :: rest, i, ft, fs, fc, ci =>
    let lv := (getNumberingInfo t).level
    if lv == 2 && ft.isNone then cbcScan rest (i + 1) (some t) fs fc ci
    else if lv == 3 && fs.isNone then cbcScan rest (i + 1) ft (some t) fc ci
    else if lv == 4 && fc.isNone then cbcScan rest (i + 1) ft fs (some t) (some i)
    else cbcScan rest (i + 1) ft fs fc ci

/-- The TOPIC block (server.js lines 193-203): reuse an existing topic of
the same name, else append a fresh one and clear the subtopic pointer. -/
def cbcTopicStage (st : CState) (ft : Option Str) : CState :=
  match ft with
  | none => st
  | some name =>
    match st.topics.findIdx? (fun t => t.name == name) with
    | some j => { st with ct := some j }
    | none =>
      { st with topics := st.topics ++ [⟨name, []⟩],
                ct := some st.topics.length, cs := none }

/-- The SUBTOPIC block (server.js lines 205-217). -/
def cbcSubStage (st : CState) (fs : Option Str) : CState :=
  match fs, st.ct with
  | some name, some j =>
    let subs := (st.topics.getD j ⟨[], []⟩).subtopics
    match subs.findIdx? (fun s => s.name == name) with
    | some k => { st with cs := some (j, k) }
    | none =>
      let newTopics := updAt st.topics j
        (fun t => { t with subtopics := t.subtopics ++ [⟨name, []⟩] })
      { st with topics := newTopics, cs := some (j, subs.length) }
  | _, _ => st

/-- The SPECIFIC COMPETENCE block (server.js lines 219-248): bullet-split
the two cells after the competence cell, then append unless a competence
with the same description already exists. -/
def cbcCompStage (st : CState) (fc : Option Str) (ci : Option Nat)
    (cellHtmls : List Str) : CState :=
  match fc, st.cs with
  | some desc, some (j, k) =>
    let i := ci.getD 0
    let la := if i + 1 < cellHtmls.length
      then splitBulletContent (cellHtmls.getD (i + 1) []) else []
    let es := if i + 2 < cellHtmls.length
      then splitBulletContent (cellHtmls.getD (i + 2) []) else []
    let comps := (((st.topics.getD j ⟨[], []⟩).subtopics).getD k ⟨[], []⟩).specificCompetences
    if comps.any (fun c => c.description == desc) then st
    else
      let newTopics := updAt st.topics j
        (fun t => { t with subtopics := (updAt t.subtopics k
          (fun s => { s with specificCompetences :=
            s.specificCompetences ++ [⟨desc, la, es⟩] })) })
      { st with topics := newTopics }
  | _, _ => st

/-- One iteration of the `$('table tr').each` row loop (server.js lines
178-263): skip short rows and header rows, run the signal scan, then the
topic, subtopic and competence blocks in order. -/
def cbcRow (st : CState) (cellHtmls : List Str) : CState :=
  if cellHtmls.length < 2 then st
  else
    let cellTexts := cellHtmls.map extractText
    if isHeaderRow cellTexts then st
    else
      match cbcScan cellTexts 0 none none none none with
      | (ft, fs, fc, ci) =>
        cbcCompStage (cbcSubStage (cbcTopicStage st ft) fs) fc ci cellHtmls

structure CBCResult where
  subject : Str
  curriculumType : Str
  form : Str
  topics : List CTopic
deriving Repr, DecidableEq

/-- The Topic sequence accumulated by the full row loop. -/
def cbcTopics (rows : List (List Str)) : List CTopic :=
  (rows.foldl cbcRow initCState).topics

/-- `parseCBCSyllabusTable(html, subject)` (server.js lines 141-274),
taking the table as the list of rows of cell HTML. -/
def parseCBCSyllabusTable (rows : List (List Str)) (subject : Str) : Option CBCResult :=
  if (cbcTopics rows).isEmpty then none
  else some ⟨subject, ['c','b','c'], ['F','o','r','m',' ','1'], cbcTopics rows⟩

/-! ### The dead bullet-content classifier -/

def bucketsEmpty (ts : List OTopic) : Bool :=
  ts.all (fun t => t.subtopics.all (fun s =>
    s.knowledge.isEmpty && s.skills.isEmpty && s.values.isEmpty))

/-- Reachability invariant of the line loop: all buckets are empty, an open
subtopic implies an open topic, and any pending number has 2 to 4 segments. -/
def OInv (st : OState) : Prop :=
  bucketsEmpty st.topics = true ∧ (st.hasCS = true → st.hasCT = true) ∧
    ∀ n, st.pending = some n → 2 ≤ segCount n ∧ segCount n ≤ 4

/-! ### Minimum stored content length -/

def compLensOk (ts : List CTopic) : Bool :=
  ts.all (fun t => t.subtopics.all (fun s => s.specificCompetences.all (fun c =>
    (c.learningActivities ++ c.expectedStandards).all (fun e => decide (2 < e.length)))))

/-! ### Competence uniqueness -/

def compDescsNodup (ts : List CTopic) : Bool :=
  ts.all (fun t => t.subtopics.all (fun s =>
    decide ((s.specificCompetences.map CComp.description).Nodup)))

/-! ### Theorems -/

lemma takeWhile_app (p : Char → Bool) (as bs : Str) (b : Char)
    (hb : p b = false) : (as ++ b :: bs).takeWhile p = as.takeWhile p := by
  induction as with
  | nil => simp [List.takeWhile_cons, hb]
  | cons a as ih =>
    simp only [List.cons_append, List.takeWhile_cons]
    split <;> simp [ih]

lemma dropWhile_app (p : Char → Bool) (as bs : Str) (b : Char)
    (hb : p b = false) : (as ++ b :: bs).dropWhile p = as.dropWhile p ++ b :: bs := by
  induction as with
  | nil => simp [List.dropWhile_cons, hb]
  | cons a as ih =>
    simp only [List.cons_append, List.dropWhile_cons]
    split <;> simp [ih]

lemma takeWhile_all (p : Char → Bool) (as : Str) (h : ∀ c ∈ as, p c = true) :
    as.takeWhile p = as := by
  induction as with
  | nil => rfl
  | cons a as ih =>
    simp only [List.takeWhile_cons, h a (by simp)]
    simp only [if_true]
    rw [ih (fun c hc => h c (by simp [hc]))]

lemma dotLen_some_elim {x : Str} {n : Nat} (h : dotLen x = some n) :
    ∃ rest, x = '.' :: rest ∧ (rest.takeWhile Char.isDigit).length ≠ 0 ∧
      n = (rest.takeWhile Char.isDigit).length + 1 := by
  match x with
  | [] => simp [dotLen] at h
  | c :: rest =>
    simp only [dotLen] at h
    by_cases hc : c = '.'
    · subst hc
      rw [if_pos rfl] at h
      split at h
      · simp at h
      · exact ⟨rest, rfl, by assumption, by injection h with h; omega⟩
    · rw [if_neg hc] at h; simp at h

lemma dotLen_bounds {x : Str} {n : Nat} (h : dotLen x = some n) :
    2 ≤ n ∧ n ≤ x.length := by
  obtain ⟨rest, hx, hk, hn⟩ := dotLen_some_elim h
  subst hx
  have := (List.takeWhile_sublist (l := rest) Char.isDigit).length_le
  simp only [List.length_cons]
  omega

lemma take_tw_len (p : Char → Bool) (l : Str) :
    l.take ((l.takeWhile p).length) = l.takeWhile p := by
  induction l with
  | nil => rfl
  | cons a l ih =>
    simp only [List.takeWhile_cons]
    split
    · simp [ih]
    · simp

lemma drop_tw_len (p : Char → Bool) (l : Str) :
    l.drop ((l.takeWhile p).length) = l.dropWhile p := by
  induction l with
  | nil => rfl
  | cons a l ih =>
    simp only [List.takeWhile_cons, List.dropWhile_cons]
    split
    · simp [ih]
    · simp

lemma digitStart_dropWhile (l : Str) :
    digitStart (l.dropWhile Char.isDigit) = false := by
  induction l with
  | nil => rfl
  | cons a l ih =>
    simp only [List.dropWhile_cons]
    split
    · exact ih
    · simp only [digitStart]
      rename_i h
      simpa using h

lemma tw_take_of_le (p : Char → Bool) (l : Str) (j : Nat)
    (h : (l.takeWhile p).length ≤ j) : (l.take j).takeWhile p = l.takeWhile p := by
  induction l generalizing j with
  | nil => simp
  | cons a l ih =>
    cases j with
    | zero =>
      simp only [List.takeWhile_cons] at h ⊢
      split at h
      · simp at h
      · rename_i hp
        simp [List.takeWhile_cons, hp]
    | succ j =>
      simp only [List.take_succ_cons, List.takeWhile_cons] at h ⊢
      split at h
      · rename_i hp
        simp only [List.takeWhile_cons, hp, if_true]
        simp only [List.length_cons] at h
        rw [ih j (by omega)]
      · rename_i hp
        simp [List.takeWhile_cons, hp]

lemma tw_app_of_lt (p : Char → Bool) (l r : Str)
    (h : (l.takeWhile p).length < l.length) :
    (l ++ r).takeWhile p = l.takeWhile p := by
  induction l with
  | nil => simp at h
  | cons a l ih =>
    simp only [List.cons_append, List.takeWhile_cons] at h ⊢
    split at h
    · rename_i hp
      simp only [hp, if_true, List.length_cons] at h ⊢
      rw [ih (by omega)]
    · rename_i hp
      simp [hp]

lemma dotLen_take {x : Str} {n m : Nat} (h : dotLen x = some n) (hm : n ≤ m) :
    dotLen (x.take m) = some n := by
  obtain ⟨rest, hx, hk, hn⟩ := dotLen_some_elim h
  subst hx
  cases m with
  | zero => omega
  | succ m =>
    simp only [List.take_succ_cons, dotLen, if_pos rfl]
    rw [tw_take_of_le Char.isDigit rest m (by omega)]
    rw [if_neg hk]
    exact congrArg some (by omega)

lemma dotLen_app_mid {x r : Str} {n : Nat} (h : dotLen x = some n)
    (hlt : n < x.length) : dotLen (x ++ r) = some n := by
  obtain ⟨rest, hx, hk, hn⟩ := dotLen_some_elim h
  subst hx
  simp only [List.length_cons] at hlt
  simp only [List.cons_append, dotLen, if_pos rfl]
  rw [tw_app_of_lt Char.isDigit rest r (by omega)]
  rw [if_neg hk]
  exact congrArg some (by omega)

lemma dotLen_app_end {x r : Str} {n : Nat} (h : dotLen x = some n)
    (hend : n = x.length) (hr : digitStart r = false) :
    dotLen (x ++ r) = some n := by
  obtain ⟨rest, hx, hk, hn⟩ := dotLen_some_elim h
  subst hx
  simp only [List.length_cons] at hend
  have hfull : rest.takeWhile Char.isDigit = rest := by
    have hsub := List.takeWhile_sublist (l := rest) Char.isDigit
    exact hsub.eq_of_length (by omega)
  have hall : ∀ c ∈ rest, Char.isDigit c = true := by
    intro c hc
    exact List.mem_takeWhile_imp (p := Char.isDigit) (hfull.symm ▸ hc)
  simp only [List.cons_append, dotLen, if_pos rfl]
  have : (rest ++ r).takeWhile Char.isDigit = rest := by
    cases r with
    | nil => simpa using hfull
    | cons b bs =>
      rw [takeWhile_app Char.isDigit rest bs b (by simpa [digitStart] using hr)]
      exact hfull
  have hk2 : rest.length ≠ 0 := by
    have := hfull ▸ hk
    simpa using this
  rw [this, if_neg hk2]
  exact congrArg some (by omega)

lemma dotLen_none_iff (x : Str) : dotLen x = none ↔ dotDigitStart x = false := by
  match x with
  | [] => simp [dotLen, dotDigitStart]
  | [c] => simp [dotLen, dotDigitStart, List.takeWhile]
  | c :: d :: rest =>
    by_cases hc : c = '.' <;> by_cases hd : d.isDigit <;>
      simp [dotLen, dotDigitStart, hc, hd, List.takeWhile_cons]

lemma dotLen_max {x : Str} {n : Nat} (h : dotLen x = some n) :
    digitStart (x.drop n) = false := by
  obtain ⟨rest, hx, hk, hn⟩ := dotLen_some_elim h
  subst hx
  subst hn
  simp only [List.drop_succ_cons]
  rw [drop_tw_len Char.isDigit rest]
  exact digitStart_dropWhile rest

lemma dotLen_shape {x : Str} {n : Nat} (h : dotLen x = some n) :
    ∃ run, x.take n = '.' :: run ∧ (∀ c ∈ run, Char.isDigit c = true) ∧
      run.length + 1 = n := by
  obtain ⟨rest, hx, hk, hn⟩ := dotLen_some_elim h
  subst hx
  subst hn
  refine ⟨rest.takeWhile Char.isDigit, ?_, fun c hc => List.mem_takeWhile_imp hc, rfl⟩
  simp only [List.take_succ_cons]
  rw [take_tw_len]

lemma digit_not_dot {c : Char} (h : Char.isDigit c = true) : c ≠ '.' := by
  intro hc
  subst hc
  exact absurd h (by decide)

lemma ws_not_digit {c : Char} (h : jsWS c = true) : Char.isDigit c = false := by
  simp only [jsWS, Bool.or_eq_true, decide_eq_true_eq] at h
  rcases h with ((((h | h) | h) | h) | h) | h <;> subst h <;> decide

lemma digit_not_ws {c : Char} (h : Char.isDigit c = true) : jsWS c = false := by
  cases hw : jsWS c
  · rfl
  · rw [ws_not_digit hw] at h
    simp at h

lemma take_cons2 (c d : Char) (l : Str) (n : Nat) :
    (c :: d :: l).take (2 + n) = c :: d :: l.take n := by
  rw [Nat.add_comm]
  rfl

lemma drop_cons2 (c d : Char) (l : Str) (n : Nat) :
    (c :: d :: l).drop (2 + n) = l.drop n := by
  rw [Nat.add_comm]
  rfl

lemma dotCount_cons (a : Char) (l : Str) :
    dotCount (a :: l) = (if a = '.' then 1 else 0) + dotCount l := by
  simp only [dotCount, List.filter_cons]
  by_cases h : a = '.' <;> simp [h, Nat.add_comm]

lemma dotCount_app (a b : Str) : dotCount (a ++ b) = dotCount a + dotCount b := by
  simp [dotCount, List.filter_append]

lemma dotCount_digits {run : Str} (h : ∀ c ∈ run, Char.isDigit c = true) :
    dotCount run = 0 := by
  simp only [dotCount, List.length_eq_zero, List.filter_eq_nil_iff]
  intro a ha
  simpa using digit_not_dot (h a ha)

lemma dotCount_chunk {x : Str} {n : Nat} (h : dotLen x = some n) :
    dotCount (x.take n) = 1 := by
  obtain ⟨run, hsh, hdig, _⟩ := dotLen_shape h
  rw [hsh, dotCount_cons, if_pos rfl, dotCount_digits hdig]

lemma matchTok_some_elim {s : Str} {L : Nat} (h : matchTok s = some L) :
    ∃ c d rest, s = c :: d :: rest ∧
      (c = '1' && (d = '0' || d = '1' || d = '2')) = true ∧
      ∃ n1, dotLen rest = some n1 ∧
        ((dotLen (rest.drop n1) = none ∧ L = 2 + n1) ∨
         ∃ n2, dotLen (rest.drop n1) = some n2 ∧
           ((dotLen (rest.drop (n1 + n2)) = none ∧ L = 2 + n1 + n2) ∨
            ∃ n3, dotLen (rest.drop (n1 + n2)) = some n3 ∧ L = 2 + n1 + n2 + n3)) := by
  match s with
  | [] => simp [matchTok] at h
  | [c] => simp [matchTok] at h
  | c :: d :: rest =>
    simp only [matchTok] at h
    split at h
    · rename_i hcd
      refine ⟨c, d, rest, rfl, hcd, ?_⟩
      split at h
      · simp at h
      · rename_i n1 hd1
        refine ⟨n1, hd1, ?_⟩
        split at h
        · rename_i hd2
          exact Or.inl ⟨hd2, by injection h with h; omega⟩
        · rename_i n2 hd2
          refine Or.inr ⟨n2, hd2, ?_⟩
          split at h
          · rename_i hd3
            exact Or.inl ⟨hd3, by injection h with h; omega⟩
          · rename_i n3 hd3
            exact Or.inr ⟨n3, hd3, by injection h with h; omega⟩
    · simp at h

lemma matchTok_intro1 {c d : Char} {rest : Str} {n1 : Nat}
    (hcd : (c = '1' && (d = '0' || d = '1' || d = '2')) = true)
    (h1 : dotLen rest = some n1) (h2 : dotLen (rest.drop n1) = none) :
    matchTok (c :: d :: rest) = some (2 + n1) := by
  simp [matchTok, hcd, h1, h2]

lemma matchTok_intro2 {c d : Char} {rest : Str} {n1 n2 : Nat}
    (hcd : (c = '1' && (d = '0' || d = '1' || d = '2')) = true)
    (h1 : dotLen rest = some n1) (h2 : dotLen (rest.drop n1) = some n2)
    (h3 : dotLen (rest.drop (n1 + n2)) = none) :
    matchTok (c :: d :: rest) = some (2 + n1 + n2) := by
  simp [matchTok, hcd, h1, h2, h3]

lemma matchTok_intro3 {c d : Char} {rest : Str} {n1 n2 n3 : Nat}
    (hcd : (c = '1' && (d = '0' || d = '1' || d = '2')) = true)
    (h1 : dotLen rest = some n1) (h2 : dotLen (rest.drop n1) = some n2)
    (h3 : dotLen (rest.drop (n1 + n2)) = some n3) :
    matchTok (c :: d :: rest) = some (2 + n1 + n2 + n3) := by
  simp [matchTok, hcd, h1, h2, h3]

lemma matchTok_anatomy {s : Str} {L : Nat} (h : matchTok s = some L) :
    L ≤ s.length ∧ matchTok (s.take L) = some L ∧ stopOk (s.take L) (s.drop L) ∧
      1 ≤ dotCount (s.take L) ∧ dotCount (s.take L) ≤ 3 := by
  obtain ⟨c, d, rest, hs, hcd, n1, hd1, hbr⟩ := matchTok_some_elim h
  subst hs
  have hcd2 := hcd
  simp only [Bool.and_eq_true, Bool.or_eq_true, decide_eq_true_eq] at hcd2
  have hcdot : c ≠ '.' := by
    rw [hcd2.1]; decide
  have hddot : d ≠ '.' := by
    rcases hcd2.2 with (h' | h') | h' <;> rw [h'] <;> decide
  have hb1 := dotLen_bounds hd1
  rcases hbr with ⟨hd2, hL⟩ | ⟨n2, hd2, hbr⟩
  · -- one chunk
    subst hL
    have htake : (c :: d :: rest).take (2 + n1) = c :: d :: rest.take n1 :=
      take_cons2 c d rest n1
    have hdrop : (c :: d :: rest).drop (2 + n1) = rest.drop n1 :=
      drop_cons2 c d rest n1
    have hchunk : dotLen (rest.take n1) = some n1 := dotLen_take hd1 le_rfl
    have hnil : (rest.take n1).drop n1 = [] :=
      List.drop_eq_nil_of_le (by simp)
    refine ⟨by simp; omega, ?_, ?_, ?_, ?_⟩
    · rw [htake]
      exact matchTok_intro1 hcd hchunk (by rw [hnil]; rfl)
    · rw [htake, hdrop]
      exact ⟨dotLen_max hd1, Or.inr ((dotLen_none_iff _).mp hd2)⟩
    · rw [htake, dotCount_cons, dotCount_cons, if_neg hcdot, if_neg hddot,
        dotCount_chunk hd1]
    · rw [htake, dotCount_cons, dotCount_cons, if_neg hcdot, if_neg hddot,
        dotCount_chunk hd1]
      omega
  · have hb2 := dotLen_bounds hd2
    rcases hbr with ⟨hd3, hL⟩ | ⟨n3, hd3, hL⟩
    · -- two chunks
      subst hL
      have htake : (c :: d :: rest).take (2 + n1 + n2) = c :: d :: rest.take (n1 + n2) := by
        rw [show 2 + n1 + n2 = 2 + (n1 + n2) from by omega]
        exact take_cons2 c d rest (n1 + n2)
      have hdrop : (c :: d :: rest).drop (2 + n1 + n2) = rest.drop (n1 + n2) := by
        rw [show 2 + n1 + n2 = 2 + (n1 + n2) from by omega]
        exact drop_cons2 c d rest (n1 + n2)
      have hc1 : dotLen (rest.take (n1 + n2)) = some n1 := dotLen_take hd1 (by omega)
      have heq1 : (rest.take (n1 + n2)).drop n1 = (rest.drop n1).take n2 := by
        rw [List.drop_take]
        congr 1
        omega
      have hc2 : dotLen ((rest.take (n1 + n2)).drop n1) = some n2 := by
        rw [heq1]
        exact dotLen_take hd2 le_rfl
      have hnil : (rest.take (n1 + n2)).drop (n1 + n2) = [] :=
        List.drop_eq_nil_of_le (by simp)
      have hsplit : rest.take (n1 + n2) = rest.take n1 ++ (rest.drop n1).take n2 :=
        List.take_add rest n1 n2
      have hcnt : dotCount (rest.take (n1 + n2)) = 2 := by
        rw [hsplit, dotCount_app, dotCount_chunk hd1, dotCount_chunk hd2]
      have hb2le : n2 ≤ rest.length - n1 := by
        have := hb2.2
        simpa using this
      refine ⟨by simp; omega, ?_, ?_, ?_, ?_⟩
      · rw [htake]
        exact matchTok_intro2 hcd hc1 hc2 (by rw [hnil]; rfl)
      · rw [htake, hdrop]
        refine ⟨?_, Or.inr ((dotLen_none_iff _).mp hd3)⟩
        have := dotLen_max hd2
        rwa [List.drop_drop] at this
      · rw [htake, dotCount_cons, dotCount_cons, if_neg hcdot, if_neg hddot, hcnt]
        omega
      · rw [htake, dotCount_cons, dotCount_cons, if_neg hcdot, if_neg hddot, hcnt]
        omega
    · -- three chunks
      subst hL
      have hb3 := dotLen_bounds hd3
      have htake : (c :: d :: rest).take (2 + n1 + n2 + n3) =
          c :: d :: rest.take (n1 + n2 + n3) := by
        rw [show 2 + n1 + n2 + n3 = 2 + (n1 + n2 + n3) from by omega]
        exact take_cons2 c d rest (n1 + n2 + n3)
      have hdrop : (c :: d :: rest).drop (2 + n1 + n2 + n3) =
          rest.drop (n1 + n2 + n3) := by
        rw [show 2 + n1 + n2 + n3 = 2 + (n1 + n2 + n3) from by omega]
        exact drop_cons2 c d rest (n1 + n2 + n3)
      have hc1 : dotLen (rest.take (n1 + n2 + n3)) = some n1 := dotLen_take hd1 (by omega)
      have heq1 : (rest.take (n1 + n2 + n3)).drop n1 = (rest.drop n1).take (n2 + n3) := by
        rw [List.drop_take]
        congr 1
        omega
      have hc2 : dotLen ((rest.take (n1 + n2 + n3)).drop n1) = some n2 := by
        rw [heq1]
        exact dotLen_take hd2 (by omega)
      have heq2 : (rest.take (n1 + n2 + n3)).drop (n1 + n2) =
          (rest.drop (n1 + n2)).take n3 := by
        rw [List.drop_take]
        congr 1
        omega
      have hc3 : dotLen ((rest.take (n1 + n2 + n3)).drop (n1 + n2)) = some n3 := by
        rw [heq2]
        exact dotLen_take hd3 le_rfl
      have hsplit : rest.take (n1 + n2 + n3) =
          rest.take n1 ++ (rest.drop n1).take n2 ++ ((rest.drop n1).drop n2).take n3 := by
        rw [show n1 + n2 + n3 = n1 + (n2 + n3) from by omega, List.take_add,
          List.take_add, List.append_assoc, List.drop_drop]
      have hcnt : dotCount (rest.take (n1 + n2 + n3)) = 3 := by
        rw [hsplit, dotCount_app, dotCount_app, dotCount_chunk hd1, dotCount_chunk hd2]
        have : dotCount (((rest.drop n1).drop n2).take n3) = 1 := by
          rw [List.drop_drop]
          exact dotCount_chunk hd3
        omega
      have hb2le : n2 ≤ rest.length - n1 := by
        have := hb2.2
        simpa using this
      have hb3le : n3 ≤ rest.length - (n1 + n2) := by
        have := hb3.2
        simpa using this
      refine ⟨by simp; omega, ?_, ?_, ?_, ?_⟩
      · rw [htake]
        exact matchTok_intro3 hcd hc1 hc2 hc3
      · rw [htake, hdrop]
        refine ⟨?_, Or.inl ?_⟩
        · have := dotLen_max hd3
          rwa [List.drop_drop] at this
        · rw [dotCount_cons, dotCount_cons, if_neg hcdot, if_neg hddot, hcnt]
      · rw [htake, dotCount_cons, dotCount_cons, if_neg hcdot, if_neg hddot, hcnt]
        omega
      · rw [htake, dotCount_cons, dotCount_cons, if_neg hcdot, if_neg hddot, hcnt]

lemma digitStart_app {w r : Str} (hw : digitStart w = false)
    (hr : digitStart r = false) : digitStart (w ++ r) = false := by
  cases w with
  | nil => simpa using hr
  | cons e w' => simpa [digitStart] using hw

lemma digitStart_of_app {w r : Str} (h : digitStart (w ++ r) = false) :
    digitStart w = false := by
  cases w with
  | nil => rfl
  | cons e w' => simpa [digitStart] using h

lemma dotDigitStart_cons_ne {c : Char} {bs : Str} (h : c ≠ '.') :
    dotDigitStart (c :: bs) = false := by
  cases bs with
  | nil => rfl
  | cons b bs' => simp [dotDigitStart, h]

lemma dotDigitStart_app {w r : Str} (hw : dotDigitStart w = false)
    (hrd : digitStart r = false) (hrr : dotDigitStart r = false) :
    dotDigitStart (w ++ r) = false := by
  match w with
  | [] => simpa using hrr
  | [e] =>
    cases r with
    | nil => simpa using hw
    | cons b bs =>
      have hb : b.isDigit = false := by simpa [digitStart] using hrd
      simp [dotDigitStart, hb]
  | e :: f :: w' => simpa [dotDigitStart] using hw

lemma dotDigitStart_of_app {w r : Str} (h : dotDigitStart (w ++ r) = false) :
    dotDigitStart w = false := by
  match w with
  | [] => rfl
  | [e] => rfl
  | e :: f :: w' => simpa [dotDigitStart] using h

lemma tw_app_ge (p : Char → Bool) (l r : Str) :
    (l.takeWhile p).length ≤ ((l ++ r).takeWhile p).length := by
  induction l with
  | nil => simp
  | cons a l ih =>
    simp only [List.cons_append, List.takeWhile_cons]
    split
    · simpa using ih
    · simp

lemma dotLen_ext {x r : Str} {n : Nat} (h : dotLen x = some n) :
    ∃ m, dotLen (x ++ r) = some m := by
  obtain ⟨rest, hx, hk, hn⟩ := dotLen_some_elim h
  subst hx
  refine ⟨((rest ++ r).takeWhile Char.isDigit).length + 1, ?_⟩
  have := tw_app_ge Char.isDigit rest r
  simp only [List.cons_append, dotLen, if_pos rfl]
  rw [if_neg (show ¬((rest ++ r).takeWhile Char.isDigit).length = 0 from by omega)]
  simp

lemma matchTok_ext {as bs : Str} {L : Nat} (h : matchTok as = some L) :
    ∃ M, matchTok (as ++ bs) = some M := by
  obtain ⟨c, d, rest, hs, hcd, n1, hd1, _⟩ := matchTok_some_elim h
  subst hs
  obtain ⟨n1', hd1'⟩ := dotLen_ext (r := bs) hd1
  cases h2 : dotLen ((rest ++ bs).drop n1') with
  | none => exact ⟨2 + n1', by simpa using matchTok_intro1 hcd hd1' h2⟩
  | some n2' =>
    cases h3 : dotLen ((rest ++ bs).drop (n1' + n2')) with
    | none => exact ⟨_, by simpa using matchTok_intro2 hcd hd1' h2 h3⟩
    | some n3' => exact ⟨_, by simpa using matchTok_intro3 hcd hd1' h2 h3⟩

lemma matchTok_none_pre {x t : Str} (h : matchTok (x ++ t) = none) :
    matchTok x = none := by
  cases hx : matchTok x with
  | none => rfl
  | some L =>
    obtain ⟨M, hM⟩ := @matchTok_ext x t L hx
    rw [hM] at h
    exact Option.noConfusion h

lemma dotLen_chunk_chars {x : Str} {n : Nat} (hx : dotLen x = some n) :
    ∀ e ∈ x.take n, Char.isDigit e = true ∨ e = '.' := by
  intro e he
  obtain ⟨run, hsh, hdig, _⟩ := dotLen_shape hx
  rw [hsh] at he
  rcases List.mem_cons.mp he with rfl | he
  · exact Or.inr rfl
  · exact Or.inl (hdig e he)

lemma matchTok_chars {s : Str} {L : Nat} (h : matchTok s = some L) :
    ∀ e ∈ s.take L, Char.isDigit e = true ∨ e = '.' := by
  obtain ⟨c, d, rest, hs, hcd, n1, hd1, hbr⟩ := matchTok_some_elim h
  subst hs
  have hcd2 : c = '1' ∧ ((d = '0' ∨ d = '1') ∨ d = '2') := by simpa using hcd
  have hc : Char.isDigit c = true := by rw [hcd2.1]; decide
  have hd : Char.isDigit d = true := by
    rcases hcd2.2 with (h' | h') | h' <;> rw [h'] <;> decide
  intro e he
  rcases hbr with ⟨_, hL⟩ | ⟨n2, hd2, hbr⟩
  · subst hL
    rw [take_cons2] at he
    rcases List.mem_cons.mp he with rfl | he
    · exact Or.inl hc
    rcases List.mem_cons.mp he with rfl | he
    · exact Or.inl hd
    · exact dotLen_chunk_chars hd1 e he
  · rcases hbr with ⟨_, hL⟩ | ⟨n3, hd3, hL⟩
    · subst hL
      rw [show 2 + n1 + n2 = 2 + (n1 + n2) from by omega, take_cons2] at he
      rcases List.mem_cons.mp he with rfl | he
      · exact Or.inl hc
      rcases List.mem_cons.mp he with rfl | he
      · exact Or.inl hd
      rw [List.take_add] at he
      rcases List.mem_append.mp he with he | he
      · exact dotLen_chunk_chars hd1 e he
      · exact dotLen_chunk_chars hd2 e he
    · subst hL
      rw [show 2 + n1 + n2 + n3 = 2 + (n1 + (n2 + n3)) from by omega, take_cons2] at he
      rcases List.mem_cons.mp he with rfl | he
      · exact Or.inl hc
      rcases List.mem_cons.mp he with rfl | he
      · exact Or.inl hd
      rw [List.take_add] at he
      rcases List.mem_append.mp he with he | he
      · exact dotLen_chunk_chars hd1 e he
      rw [List.take_add] at he
      rcases List.mem_append.mp he with he | he
      · exact dotLen_chunk_chars hd2 e he
      · rw [List.drop_drop] at he
        exact dotLen_chunk_chars hd3 e he

lemma matchTok_pos {s : Str} {L : Nat} (h : matchTok s = some L) :
    4 ≤ L ∧ L ≤ s.length := by
  obtain ⟨c, d, rest, hs, hcd, n1, hd1, hbr⟩ := matchTok_some_elim h
  have hlen := (matchTok_anatomy h).1
  subst hs
  have hb1 := dotLen_bounds hd1
  rcases hbr with ⟨_, hL⟩ | ⟨n2, hd2, hbr⟩
  · omega
  · have hb2 := dotLen_bounds hd2
    rcases hbr with ⟨_, hL⟩ | ⟨n3, hd3, hL⟩
    · omega
    · have hb3 := dotLen_bounds hd3
      omega

lemma dotCount_cons2 {c d : Char}
    (hcd : (c = '1' && (d = '0' || d = '1' || d = '2')) = true) (l : Str) :
    dotCount (c :: d :: l) = dotCount l := by
  have hcd2 : c = '1' ∧ ((d = '0' ∨ d = '1') ∨ d = '2') := by simpa using hcd
  have hcdot : c ≠ '.' := by rw [hcd2.1]; decide
  have hddot : d ≠ '.' := by
    rcases hcd2.2 with (h' | h') | h' <;> rw [h'] <;> decide
  rw [dotCount_cons, dotCount_cons, if_neg hcdot, if_neg hddot]
  omega

lemma matchTok_app_stop {x r : Str} {L : Nat} (hx : matchTok x = some L)
    (hLx : x.length = L) (hds : digitStart r = false)
    (hdd : dotCount x = 3 ∨ dotDigitStart r = false) :
    matchTok (x ++ r) = some L := by
  obtain ⟨c, d, xrest, hs, hcd, n1, hd1, hbr⟩ := matchTok_some_elim hx
  subst hs
  have hb1 := dotLen_bounds hd1
  simp only [List.length_cons] at hLx
  simp only [List.cons_append]
  rcases hbr with ⟨hd2, hL⟩ | ⟨n2, hd2, hbr⟩
  · subst hL
    have hn1 : n1 = xrest.length := by omega
    have h1' : dotLen (xrest ++ r) = some n1 := dotLen_app_end hd1 hn1 hds
    have hdrop : (xrest ++ r).drop n1 = r := by
      rw [hn1]
      exact List.drop_left xrest r
    have hcnt : dotCount (c :: d :: xrest) = 1 := by
      rw [dotCount_cons2 hcd]
      have := dotCount_chunk hd1
      rwa [hn1, List.take_length] at this
    have hr2 : dotDigitStart r = false := by
      rcases hdd with h3 | h3
      · rw [hcnt] at h3
        exact absurd h3 (by decide)
      · exact h3
    exact matchTok_intro1 hcd h1' (by rw [hdrop]; exact (dotLen_none_iff r).mpr hr2)
  · have hb2 := dotLen_bounds hd2
    have hb2' : n2 ≤ xrest.length - n1 := by
      have := hb2.2
      simpa using this
    rcases hbr with ⟨hd3, hL⟩ | ⟨n3, hd3, hL⟩
    · subst hL
      have hlen2 : n1 + n2 = xrest.length := by omega
      have h1' : dotLen (xrest ++ r) = some n1 := dotLen_app_mid hd1 (by omega)
      have hdr1 : (xrest ++ r).drop n1 = xrest.drop n1 ++ r :=
        List.drop_append_of_le_length (by omega)
      have h2' : dotLen (xrest.drop n1 ++ r) = some n2 :=
        dotLen_app_end hd2 (by simp; omega) hds
      have hdr2 : (xrest ++ r).drop (n1 + n2) = r := by
        rw [hlen2]
        exact List.drop_left xrest r
      have hcnt : dotCount (c :: d :: xrest) = 2 := by
        rw [dotCount_cons2 hcd]
        have e1 : dotCount (xrest.take n1) = 1 := dotCount_chunk hd1
        have e2 : dotCount (xrest.drop n1) = 1 := by
          have := dotCount_chunk hd2
          rwa [List.take_of_length_le (by simp; omega)] at this
        calc dotCount xrest = dotCount (xrest.take n1 ++ xrest.drop n1) := by
              rw [List.take_append_drop]
          _ = 2 := by rw [dotCount_app, e1, e2]
      have hr2 : dotDigitStart r = false := by
        rcases hdd with h3 | h3
        · rw [hcnt] at h3
          exact absurd h3 (by decide)
        · exact h3
      exact matchTok_intro2 hcd h1' (by rw [hdr1]; exact h2')
        (by rw [hdr2]; exact (dotLen_none_iff r).mpr hr2)
    · subst hL
      have hb3 := dotLen_bounds hd3
      have hb3' : n3 ≤ xrest.length - (n1 + n2) := by
        have := hb3.2
        simpa using this
      have hlen3 : n1 + n2 + n3 = xrest.length := by omega
      have h1' : dotLen (xrest ++ r) = some n1 := dotLen_app_mid hd1 (by omega)
      have hdr1 : (xrest ++ r).drop n1 = xrest.drop n1 ++ r :=
        List.drop_append_of_le_length (by omega)
      have h2' : dotLen (xrest.drop n1 ++ r) = some n2 :=
        dotLen_app_mid hd2 (by simp; omega)
      have hdr2 : (xrest ++ r).drop (n1 + n2) = xrest.drop (n1 + n2) ++ r :=
        List.drop_append_of_le_length (by omega)
      have h3' : dotLen (xrest.drop (n1 + n2) ++ r) = some n3 :=
        dotLen_app_end hd3 (by simp; omega) hds
      exact matchTok_intro3 hcd h1' (by rw [hdr1]; exact h2') (by rw [hdr2]; exact h3')

lemma matchTok_master {s : Str} {L : Nat} :
    matchTok s = some L ↔
      L ≤ s.length ∧ matchTok (s.take L) = some L ∧ stopOk (s.take L) (s.drop L) := by
  constructor
  · intro h
    have := matchTok_anatomy h
    exact ⟨this.1, this.2.1, this.2.2.1⟩
  · rintro ⟨h1, h2, h3⟩
    have hlen : (s.take L).length = L := by
      simp only [List.length_take]
      omega
    have := matchTok_app_stop h2 hlen h3.1 ?_
    · rwa [List.take_append_drop] at this
    · rcases h3.2 with h4 | h4
      · exact Or.inl h4
      · exact Or.inr h4

lemma matchTok_stopchar {as bs : Str} {c : Char} (hdig : Char.isDigit c = false)
    (hdot : c ≠ '.') : matchTok (as ++ c :: bs) = matchTok as := by
  cases h : matchTok as with
  | some L =>
    have ha := matchTok_anatomy h
    have hLlen : L ≤ as.length := ha.1
    have htk : (as ++ c :: bs).take L = as.take L := by
      rw [List.take_append_eq_append_take, show L - as.length = 0 from by omega]
      simp
    have hdr : (as ++ c :: bs).drop L = as.drop L ++ c :: bs :=
      List.drop_append_of_le_length hLlen
    have hstop := ha.2.2.1
    apply matchTok_master.mpr
    refine ⟨by simp only [List.length_append, List.length_cons]; omega, ?_, ?_⟩
    · rw [htk]
      exact ha.2.1
    · rw [htk, hdr]
      refine ⟨digitStart_app hstop.1 (by simpa [digitStart] using hdig), ?_⟩
      rcases hstop.2 with h2 | h2
      · exact Or.inl h2
      · exact Or.inr (dotDigitStart_app h2 (by simpa [digitStart] using hdig)
          (dotDigitStart_cons_ne hdot))
  | none =>
    cases h2 : matchTok (as ++ c :: bs) with
    | none => rfl
    | some L =>
      exfalso
      have ha := matchTok_anatomy h2
      have hchars := matchTok_chars h2
      have hLle : L ≤ as.length := by
        by_contra hgt
        push_neg at hgt
        have hcmem : c ∈ (as ++ c :: bs).take L := by
          rw [List.take_append_eq_append_take]
          refine List.mem_append.mpr (Or.inr ?_)
          rw [show L - as.length = (L - as.length - 1) + 1 from by omega]
          simp
        rcases hchars c hcmem with hd' | hd'
        · rw [hdig] at hd'
          exact absurd hd' (by simp)
        · exact hdot hd'
      have htk : (as ++ c :: bs).take L = as.take L := by
        rw [List.take_append_eq_append_take, show L - as.length = 0 from by omega]
        simp
      have hdr : (as ++ c :: bs).drop L = as.drop L ++ c :: bs :=
        List.drop_append_of_le_length hLle
      have hstop := ha.2.2.1
      rw [htk, hdr] at hstop
      have hmt : matchTok (as.take L) = some L := by
        have := ha.2.1
        rwa [htk] at this
      have : matchTok as = some L := by
        apply matchTok_master.mpr
        refine ⟨hLle, hmt, digitStart_of_app hstop.1, ?_⟩
        rcases hstop.2 with h3 | h3
        · exact Or.inl h3
        · exact Or.inr (dotDigitStart_of_app h3)
      rw [h] at this
      exact Option.noConfusion this

/-! ### Structure of the break-inserting scan -/

lemma scanGo_skip (k : Nat) (s : Str) :
    scanGo k s = s.take k ++ scanGo 0 (s.drop k) := by
  induction s generalizing k with
  | nil => simp [scanGo]
  | cons c rest ih =>
    cases k with
    | zero => simp
    | succ k =>
      simp only [scanGo, List.take_succ_cons, List.drop_succ_cons, List.cons_append]
      rw [ih k]

lemma matchTok_cons_ne1 {c : Char} {rest : Str} (hc : c ≠ '1') :
    matchTok (c :: rest) = none := by
  cases rest with
  | nil => rfl
  | cons d rest' => simp [matchTok, hc]

lemma scan_nomatch {c : Char} {rest : Str} (h : matchTok (c :: rest) = none) :
    scanGo 0 (c :: rest) = c :: scanGo 0 rest := by
  simp only [scanGo, h]

lemma scan_match {s : Str} {L : Nat} (h : matchTok s = some L) :
    scanGo 0 s = '\n' :: (s.take L ++ scanGo 0 (s.drop L)) := by
  cases s with
  | nil => simp [matchTok] at h
  | cons c rest =>
    have h4 := (matchTok_pos h).1
    obtain ⟨M, rfl⟩ : ∃ M, L = M + 1 := ⟨L - 1, by omega⟩
    have hstep : scanGo 0 (c :: rest) = '\n' :: c :: scanGo M rest := by
      simp only [scanGo, h, Nat.add_sub_cancel]
    rw [hstep, scanGo_skip M rest]
    simp [List.take_succ_cons, List.drop_succ_cons, Nat.add_sub_cancel]

lemma scan_app_nl_aux :
    ∀ n (xs : Str), xs.length ≤ n → ∀ ys,
      scanGo 0 (xs ++ '\n' :: ys) = scanGo 0 xs ++ '\n' :: scanGo 0 ys := by
  intro n
  induction n with
  | zero =>
    intro xs h ys
    have : xs = [] := List.length_eq_zero.mp (by omega)
    subst this
    simp only [List.nil_append]
    rw [scan_nomatch (matchTok_cons_ne1 (by decide))]
    rfl
  | succ n ih =>
    intro xs h ys
    cases hx : matchTok xs with
    | some L =>
      have hext : matchTok (xs ++ '\n' :: ys) = some L := by
        rw [matchTok_stopchar (by decide) (by decide), hx]
      have hpos := matchTok_pos hx
      have htk : (xs ++ '\n' :: ys).take L = xs.take L := by
        rw [List.take_append_eq_append_take, show L - xs.length = 0 from by omega]
        simp
      have hdr : (xs ++ '\n' :: ys).drop L = xs.drop L ++ '\n' :: ys :=
        List.drop_append_of_le_length (by omega)
      rw [scan_match hext, htk, hdr, ih (xs.drop L) (by simp; omega) ys,
        scan_match hx]
      simp
    | none =>
      cases xs with
      | nil =>
        simp only [List.nil_append]
        rw [scan_nomatch (matchTok_cons_ne1 (by decide))]
        rfl
      | cons c rest =>
        have hext : matchTok ((c :: rest) ++ '\n' :: ys) = none := by
          rw [matchTok_stopchar (by decide) (by decide), hx]
        have hext' : matchTok (c :: (rest ++ '\n' :: ys)) = none := by
          simpa using hext
        simp only [List.cons_append]
        rw [scan_nomatch hext', ih rest (by simpa using h) ys, scan_nomatch hx]
        rfl

lemma scan_app_nl (xs ys : Str) :
    scanGo 0 (xs ++ '\n' :: ys) = scanGo 0 xs ++ '\n' :: scanGo 0 ys :=
  scan_app_nl_aux xs.length xs le_rfl ys

lemma firstPiece_nil : firstPiece [] = [] := rfl

lemma firstPiece_nl (s : Str) : firstPiece ('\n' :: s) = [] := by
  simp [firstPiece, List.takeWhile_cons]

lemma firstPiece_cons {c : Char} (s : Str) (hc : c ≠ '\n') :
    firstPiece (c :: s) = c :: firstPiece s := by
  simp [firstPiece, List.takeWhile_cons, hc]

lemma tok_no_nl {s : Str} {L : Nat} (h : matchTok s = some L) :
    '\n' ∉ s.take L := by
  intro hmem
  rcases matchTok_chars h '\n' hmem with h' | h'
  · exact absurd h' (by decide)
  · exact absurd h' (by decide)

lemma firstPiece_pre_aux :
    ∀ n (v : Str), v.length ≤ n → ∃ t, firstPiece (scanGo 0 v) ++ t = v := by
  intro n
  induction n with
  | zero =>
    intro v h
    have : v = [] := List.length_eq_zero.mp (by omega)
    subst this
    exact ⟨[], rfl⟩
  | succ n ih =>
    intro v h
    cases hm : matchTok v with
    | some L =>
      rw [scan_match hm]
      rw [firstPiece_nl]
      exact ⟨v, rfl⟩
    | none =>
      cases v with
      | nil => exact ⟨[], rfl⟩
      | cons c rest =>
        by_cases hc : c = '\n'
        · subst hc
          rw [scan_nomatch hm, firstPiece_nl]
          exact ⟨'\n' :: rest, rfl⟩
        · rw [scan_nomatch hm, firstPiece_cons _ hc]
          obtain ⟨t, ht⟩ := ih rest (by simpa using h)
          exact ⟨t, by simp [ht]⟩

lemma firstPiece_pre (v : Str) : ∃ t, firstPiece (scanGo 0 v) ++ t = v :=
  firstPiece_pre_aux v.length v le_rfl

lemma fp_nomatch_aux :
    ∀ n (v : Str), v.length ≤ n → ∀ i,
      matchTok ((firstPiece (scanGo 0 v)).drop i) = none := by
  intro n
  induction n with
  | zero =>
    intro v h i
    have : v = [] := List.length_eq_zero.mp (by omega)
    subst this
    rw [show scanGo 0 ([] : Str) = [] from rfl, firstPiece_nil, List.drop_nil]
    rfl
  | succ n ih =>
    intro v h i
    cases hm : matchTok v with
    | some L =>
      rw [scan_match hm, firstPiece_nl, List.drop_nil]
      rfl
    | none =>
      cases v with
      | nil =>
        rw [show scanGo 0 ([] : Str) = [] from rfl, firstPiece_nil, List.drop_nil]
        rfl
      | cons c rest =>
        by_cases hc : c = '\n'
        · subst hc
          rw [scan_nomatch hm, firstPiece_nl, List.drop_nil]
          rfl
        · rw [scan_nomatch hm, firstPiece_cons _ hc]
          cases i with
          | zero =>
            obtain ⟨t, ht⟩ := firstPiece_pre rest
            have hpre : (c :: firstPiece (scanGo 0 rest)) ++ t = c :: rest := by
              simp [ht]
            simp only [List.drop_zero]
            exact matchTok_none_pre (t := t) (by rw [hpre]; exact hm)
          | succ i =>
            simp only [List.drop_succ_cons]
            exact ih rest (by simpa using h) i

lemma fp_nomatch (v : Str) (i : Nat) :
    matchTok ((firstPiece (scanGo 0 v)).drop i) = none :=
  fp_nomatch_aux v.length v le_rfl i

lemma scan_of_nomatch {x : Str} (h : ∀ i, matchTok (x.drop i) = none) :
    scanGo 0 x = x := by
  induction x with
  | nil => rfl
  | cons c rest ih =>
    rw [scan_nomatch (by simpa using h 0)]
    rw [ih (fun i => by simpa using h (i + 1))]

lemma nomatch_take {x : Str} (h : ∀ i, matchTok (x.drop i) = none) (m : Nat) :
    ∀ i, matchTok ((x.take m).drop i) = none := by
  intro i
  rw [List.drop_take]
  exact matchTok_none_pre (t := (x.drop i).drop (m - i))
    (by rw [List.take_append_drop]; exact h i)

lemma nomatch_drop {x : Str} (h : ∀ i, matchTok (x.drop i) = none) (a : Nat) :
    ∀ i, matchTok (((x.drop a)).drop i) = none := by
  intro i
  rw [List.drop_drop]
  exact h (a + i)

/-! ### Trim and split lemmas -/

lemma dropWhile_head_false {p : Char → Bool} {y : Str} {c : Char} {w : Str}
    (h : y.dropWhile p = c :: w) : p c = false := by
  induction y with
  | nil => simp at h
  | cons a y ih =>
    simp only [List.dropWhile_cons] at h
    split at h
    · exact ih h
    · rename_i ha
      injection h with h1 _
      subst h1
      simpa using ha

lemma dropWhile_idem (p : Char → Bool) (y : Str) :
    (y.dropWhile p).dropWhile p = y.dropWhile p := by
  cases hy : y.dropWhile p with
  | nil => rfl
  | cons c w => simp [List.dropWhile_cons, dropWhile_head_false hy]

lemma dropWhile_append2 (p : Char → Bool) (a b : Str) :
    (a ++ b).dropWhile p =
      if a.dropWhile p = [] then b.dropWhile p else a.dropWhile p ++ b := by
  induction a with
  | nil => simp
  | cons c a' ih =>
    simp only [List.cons_append, List.dropWhile_cons]
    split
    · rw [ih]
    · simp

lemma trimL_cons_nonws {c : Char} {w : Str} (h : jsWS c = false) :
    trimL (c :: w) = c :: w := by
  simp [trimL, List.dropWhile_cons, h]

lemma trimR_nil : trimR [] = [] := rfl

lemma trim_nil : trim ([] : Str) = [] := rfl

lemma trimR_eq_nil_iff (y : Str) : trimR y = [] ↔ y.reverse.dropWhile jsWS = [] := by
  constructor
  · intro h
    have := congrArg List.reverse h
    simpa [trimR] using this
  · intro h
    simp [trimR, h]

lemma dropWhile_all (p : Char → Bool) (l : Str) (h : ∀ c ∈ l, p c = false) :
    l.dropWhile p = l := by
  cases l with
  | nil => rfl
  | cons a l' => simp [List.dropWhile_cons, h a (by simp)]

lemma trimR_app (x p : Str) :
    trimR (x ++ p) = if trimR p = [] then trimR x else x ++ trimR p := by
  by_cases h : p.reverse.dropWhile jsWS = []
  · rw [if_pos ((trimR_eq_nil_iff p).mpr h)]
    simp only [trimR, List.reverse_append]
    rw [dropWhile_append2, if_pos h]
  · rw [if_neg (fun hc => h ((trimR_eq_nil_iff p).mp hc))]
    simp only [trimR, List.reverse_append]
    rw [dropWhile_append2, if_neg h]
    simp

lemma trimR_all_nonws {x : Str} (h : ∀ c ∈ x, jsWS c = false) : trimR x = x := by
  rw [trimR, dropWhile_all jsWS x.reverse (fun c hc => h c (List.mem_reverse.mp hc))]
  simp

lemma trim_tok_app {x p : Str} (hx : x ≠ []) (hall : ∀ c ∈ x, jsWS c = false) :
    trim (x ++ p) = x ++ trimR p := by
  cases x with
  | nil => exact absurd rfl hx
  | cons c x' =>
    have hc : jsWS c = false := hall c (by simp)
    rw [trim, show trimL ((c :: x') ++ p) = (c :: x') ++ p from by
      simpa using trimL_cons_nonws hc]
    rw [trimR_app]
    split
    · rename_i h
      rw [h, trimR_all_nonws hall]
      simp
    · rfl

lemma trimR_pre (y : Str) : ∃ t, trimR y ++ t = y := by
  refine ⟨(y.reverse.takeWhile jsWS).reverse, ?_⟩
  rw [trimR, ← List.reverse_append, List.takeWhile_append_dropWhile,
    List.reverse_reverse]

lemma pre_eq_take {a t y : Str} (h : a ++ t = y) : a = y.take a.length := by
  rw [← h, List.take_left]

lemma nomatch_trim {x : Str} (h : ∀ i, matchTok (x.drop i) = none) :
    ∀ i, matchTok ((trim x).drop i) = none := by
  have hL : trimL x = x.drop ((x.takeWhile jsWS).length) := (drop_tw_len jsWS x).symm
  have h1 : ∀ i, matchTok ((trimL x).drop i) = none := by
    rw [hL]
    exact nomatch_drop h _
  obtain ⟨t, ht⟩ := trimR_pre (trimL x)
  have h2 := pre_eq_take ht
  intro i
  rw [trim, h2]
  exact nomatch_take h1 _ i

lemma trim_subset {x : Str} : ∀ c ∈ trim x, c ∈ x := by
  intro c hc
  have h1 : ∀ e ∈ trimL x, e ∈ x := by
    intro e he
    rw [show trimL x = x.drop ((x.takeWhile jsWS).length) from (drop_tw_len jsWS x).symm]
      at he
    exact List.mem_of_mem_drop he
  obtain ⟨t, ht⟩ := trimR_pre (trimL x)
  apply h1
  rw [← ht]
  exact List.mem_append_left t hc

lemma trimL_idem (x : Str) : trimL (trimL x) = trimL x := dropWhile_idem jsWS x

lemma trimR_idem (y : Str) : trimR (trimR y) = trimR y := by
  simp only [trimR, List.reverse_reverse]
  rw [dropWhile_idem]

lemma trimL_trimR (x : Str) : trimL (trimR (trimL x)) = trimR (trimL x) := by
  cases hy : trimR (trimL x) with
  | nil => rfl
  | cons c w =>
    obtain ⟨t, ht⟩ := trimR_pre (trimL x)
    rw [hy] at ht
    have hdw : trimL x = c :: (w ++ t) := by
      rw [← ht]
      simp
    have hc : jsWS c = false := dropWhile_head_false (p := jsWS) (y := x) hdw
    exact trimL_cons_nonws hc

lemma trim_idem (x : Str) : trim (trim x) = trim x := by
  rw [trim, trim, trimL_trimR, trimR_idem]

/-! ### splitNl lemmas -/

lemma splitNl_nil : splitNl [] = [[]] := rfl

lemma splitNl_cons_nl (s : Str) : splitNl ('\n' :: s) = [] :: splitNl s := rfl

lemma splitNl_shape (s : Str) : ∃ h t, splitNl s = h :: t := by
  induction s with
  | nil => exact ⟨[], [], rfl⟩
  | cons c rest ih =>
    by_cases hc : c = '\n'
    · subst hc
      exact ⟨[], splitNl rest, rfl⟩
    · obtain ⟨h, t, ht⟩ := ih
      refine ⟨c :: h, t, ?_⟩
      simp only [splitNl, hc]
      rw [ht]

lemma splitNl_cons_ne {c : Char} (hc : c ≠ '\n') (s : Str) (h : Str) (t : List Str)
    (hs : splitNl s = h :: t) : splitNl (c :: s) = (c :: h) :: t := by
  simp only [splitNl, hc]
  rw [hs]

lemma splitNl_head (s : Str) : ∃ t, splitNl s = firstPiece s :: t := by
  induction s with
  | nil => exact ⟨[], rfl⟩
  | cons c rest ih =>
    by_cases hc : c = '\n'
    · subst hc
      rw [firstPiece_nl]
      exact ⟨splitNl rest, rfl⟩
    · obtain ⟨t, ht⟩ := ih
      rw [firstPiece_cons _ hc]
      exact ⟨t, splitNl_cons_ne hc rest _ t ht⟩

lemma splitNl_app_free2 {x : Str} (hx : '\n' ∉ x) (y : Str) {h : Str} {t : List Str}
    (hy : splitNl y = h :: t) : splitNl (x ++ y) = (x ++ h) :: t := by
  induction x with
  | nil => simpa using hy
  | cons c x' ih =>
    have hc : c ≠ '\n' := fun hcc => hx (by simp [hcc])
    have hx' : '\n' ∉ x' := fun hm => hx (by simp [hm])
    simp only [List.cons_append]
    rw [splitNl_cons_ne hc _ _ _ (ih hx')]

lemma splitNl_free {l : Str} (h : '\n' ∉ l) : splitNl l = [l] := by
  have := splitNl_app_free2 h [] (h := []) (t := []) rfl
  simpa using this

lemma splitNl_no_nl (s : Str) : ∀ p ∈ splitNl s, '\n' ∉ p := by
  induction s with
  | nil =>
    intro p hp
    rw [splitNl_nil] at hp
    simp at hp
    simp [hp]
  | cons c rest ih =>
    intro p hp
    by_cases hc : c = '\n'
    · subst hc
      rw [splitNl_cons_nl] at hp
      rcases List.mem_cons.mp hp with rfl | hp
      · simp
      · exact ih p hp
    · obtain ⟨h, t, ht⟩ := splitNl_shape rest
      rw [splitNl_cons_ne hc _ _ _ ht] at hp
      rcases List.mem_cons.mp hp with rfl | hp
      · intro hm
        rcases List.mem_cons.mp hm with h1 | h1
        · exact hc h1.symm
        · exact ih h (by rw [ht]; simp) h1
      · exact ih p (by rw [ht]; simp [hp])

lemma splitNl_chars (s : Str) : ∀ p ∈ splitNl s, ∀ c ∈ p, c ∈ s := by
  induction s with
  | nil =>
    intro p hp
    rw [splitNl_nil] at hp
    simp at hp
    simp [hp]
  | cons a rest ih =>
    intro p hp c hc
    by_cases ha : a = '\n'
    · subst ha
      rw [splitNl_cons_nl] at hp
      rcases List.mem_cons.mp hp with rfl | hp
      · simp at hc
      · exact List.mem_cons_of_mem _ (ih p hp c hc)
    · obtain ⟨h, t, ht⟩ := splitNl_shape rest
      rw [splitNl_cons_ne ha _ _ _ ht] at hp
      rcases List.mem_cons.mp hp with rfl | hp
      · rcases List.mem_cons.mp hc with rfl | hc
        · simp
        · exact List.mem_cons_of_mem _ (ih h (by rw [ht]; simp) c hc)
      · exact List.mem_cons_of_mem _ (ih p (by rw [ht]; simp [hp]) c hc)

lemma digitStart_pre {q w : Str} (hp : ∃ t, q ++ t = w)
    (h : digitStart w = false) : digitStart q = false := by
  obtain ⟨t, rfl⟩ := hp
  cases q with
  | nil => rfl
  | cons e q' => simpa [digitStart] using h

lemma dotDigitStart_pre {q w : Str} (hp : ∃ t, q ++ t = w)
    (h : dotDigitStart w = false) : dotDigitStart q = false := by
  obtain ⟨t, rfl⟩ := hp
  match q with
  | [] => rfl
  | [e] => rfl
  | e :: f :: q' => simpa [dotDigitStart] using h

lemma stable_of_nomatch {l : Str} (h : ∀ i, matchTok (l.drop i) = none) :
    lineStable l := Or.inr (scan_of_nomatch h)

lemma stable_head_match {v : Str} {L : Nat} (hm : matchTok v = some L) :
    lineStable (trim (v.take L ++ firstPiece (scanGo 0 (v.drop L)))) := by
  have hpos := matchTok_pos hm
  have hchars := matchTok_chars hm
  have hnonws : ∀ c ∈ v.take L, jsWS c = false := by
    intro c hc
    rcases hchars c hc with h' | h'
    · exact digit_not_ws h'
    · subst h'
      decide
  have hlen : (v.take L).length = L := by
    simp only [List.length_take]
    omega
  have hne : v.take L ≠ [] := by
    intro hnil
    rw [hnil] at hlen
    simp at hlen
    omega
  have htrim : trim (v.take L ++ firstPiece (scanGo 0 (v.drop L))) =
      v.take L ++ trimR (firstPiece (scanGo 0 (v.drop L))) := trim_tok_app hne hnonws
  rw [htrim]
  obtain ⟨t1, hq⟩ := trimR_pre (firstPiece (scanGo 0 (v.drop L)))
  obtain ⟨t2, hfp⟩ := firstPiece_pre (v.drop L)
  have hqpre : ∃ t, trimR (firstPiece (scanGo 0 (v.drop L))) ++ t = v.drop L :=
    ⟨t1 ++ t2, by rw [← List.append_assoc, hq, hfp]⟩
  have hnm : ∀ i, matchTok ((trimR (firstPiece (scanGo 0 (v.drop L)))).drop i) = none := by
    have h2 := pre_eq_take hq
    intro i
    rw [h2]
    exact nomatch_take (fun j => fp_nomatch (v.drop L) j) _ i
  have ha := matchTok_anatomy hm
  have hstop := ha.2.2.1
  have hmm : matchTok (v.take L ++ trimR (firstPiece (scanGo 0 (v.drop L)))) = some L := by
    apply matchTok_app_stop ha.2.1 hlen
    · exact digitStart_pre hqpre hstop.1
    · rcases hstop.2 with h3 | h3
      · exact Or.inl h3
      · exact Or.inr (dotDigitStart_pre hqpre h3)
  left
  rw [scan_match hmm]
  have htl : (v.take L ++ trimR (firstPiece (scanGo 0 (v.drop L)))).take L = v.take L := by
    rw [List.take_append_eq_append_take, hlen,
      show L - L = 0 from by omega]
    simp [List.take_take]
  have hdl : (v.take L ++ trimR (firstPiece (scanGo 0 (v.drop L)))).drop L =
      trimR (firstPiece (scanGo 0 (v.drop L))) := by
    have := List.drop_left (v.take L) (trimR (firstPiece (scanGo 0 (v.drop L))))
    rwa [hlen] at this
  rw [htl, hdl, scan_of_nomatch hnm]

lemma stable_aux :
    ∀ n (v : Str), v.length ≤ n → ∀ p ∈ splitNl (scanGo 0 v), lineStable (trim p) := by
  intro n
  induction n with
  | zero =>
    intro v h p hp
    have : v = [] := List.length_eq_zero.mp (by omega)
    subst this
    rw [show scanGo 0 ([] : Str) = [] from rfl, splitNl_nil] at hp
    simp at hp
    subst hp
    exact Or.inr rfl
  | succ n ih =>
    intro v h p hp
    cases hm : matchTok v with
    | some L =>
      have hpos := matchTok_pos hm
      rw [scan_match hm, splitNl_cons_nl] at hp
      rcases List.mem_cons.mp hp with rfl | hp
      · exact Or.inr rfl
      · obtain ⟨t0, hsp⟩ := splitNl_head (scanGo 0 (v.drop L))
        rw [splitNl_app_free2 (tok_no_nl hm) _ hsp] at hp
        rcases List.mem_cons.mp hp with rfl | hp
        · exact stable_head_match hm
        · refine ih (v.drop L) (by simp; omega) p ?_
          rw [hsp]
          exact List.mem_cons_of_mem _ hp
    | none =>
      cases v with
      | nil =>
        rw [show scanGo 0 ([] : Str) = [] from rfl, splitNl_nil] at hp
        simp at hp
        subst hp
        exact Or.inr rfl
      | cons c rest =>
        by_cases hc : c = '\n'
        · subst hc
          rw [scan_nomatch hm, splitNl_cons_nl] at hp
          rcases List.mem_cons.mp hp with rfl | hp
          · exact Or.inr rfl
          · exact ih rest (by simpa using h) p hp
        · rw [scan_nomatch hm] at hp
          obtain ⟨h0, t0, hsp⟩ := splitNl_shape (scanGo 0 rest)
          rw [splitNl_cons_ne hc _ _ _ hsp] at hp
          rcases List.mem_cons.mp hp with rfl | hp
          · have hfp : c :: h0 = firstPiece (scanGo 0 (c :: rest)) := by
              rw [scan_nomatch hm, firstPiece_cons _ hc]
              obtain ⟨t1, hsp1⟩ := splitNl_head (scanGo 0 rest)
              rw [hsp] at hsp1
              injection hsp1 with h1 _
              rw [h1]
            apply stable_of_nomatch
            apply nomatch_trim
            intro i
            rw [hfp]
            exact fp_nomatch (c :: rest) i
          · refine ih rest (by simpa using h) p ?_
            rw [hsp]
            exact List.mem_cons_of_mem _ hp

/-- Every line produced by the Normalizer trim-split of a scanned text is
stable under rescanning. -/
lemma cleanLines_stable (v : Str) :
    ∀ l ∈ cleanLines (scanGo 0 v), l ≠ [] ∧ '\n' ∉ l ∧ trim l = l ∧ lineStable l := by
  intro l hl
  simp only [cleanLines, List.mem_filter, List.mem_map] at hl
  obtain ⟨⟨p, hp, rfl⟩, hne⟩ := hl
  refine ⟨by simpa using hne, ?_, trim_idem p, stable_aux v.length v le_rfl p hp⟩
  intro hmem
  exact splitNl_no_nl _ p hp (trim_subset _ hmem)

/-! ### Second-pass identities and the rejoin theorem -/

lemma bulletFix_eq (s : Str) : bulletFix s = s := by
  have h : ∀ c : Char, (if c = '•' then '•' else c) = c := by
    intro c
    by_cases hc : c = '•' <;> simp [hc]
  simp only [bulletFix]
  induction s with
  | nil => rfl
  | cons c rest ih => simp [h c, ih]

lemma crnl_eq_self {s : Str} (h : '\r' ∉ s) : crnl s = s := by
  induction s with
  | nil => rfl
  | cons c rest ih =>
    have hc : c ≠ '\r' := fun hc => h (by simp [hc])
    simp only [crnl, List.map_cons, if_neg hc]
    rw [show List.map (fun c => if c = '\r' then '\n' else c) rest = rest from
      ih (fun hm => h (by simp [hm]))]

lemma crnl_no_cr (s : Str) : '\r' ∉ crnl s := by
  intro hm
  simp only [crnl, List.mem_map] at hm
  obtain ⟨a, _, ha⟩ := hm
  by_cases h : a = '\r'
  · rw [if_pos h] at ha
    exact absurd ha (by decide)
  · rw [if_neg h] at ha
    exact h ha

lemma collapseGo_subset {s : Str} : ∀ b, ∀ c ∈ collapseGo b s, c ∈ s := by
  induction s with
  | nil => intro b c hc; simp [collapseGo] at hc
  | cons a rest ih =>
    intro b c hc
    simp only [collapseGo] at hc
    by_cases ha : a = '\n'
    · rw [if_pos ha] at hc
      subst ha
      cases b with
      | true => exact List.mem_cons_of_mem _ (ih true c hc)
      | false =>
        rcases List.mem_cons.mp hc with rfl | hc
        · simp
        · exact List.mem_cons_of_mem _ (ih true c hc)
    · rw [if_neg ha] at hc
      rcases List.mem_cons.mp hc with rfl | hc
      · simp
      · exact List.mem_cons_of_mem _ (ih false c hc)

lemma scanGo_chars {s : Str} : ∀ k, ∀ c ∈ scanGo k s, c ∈ s ∨ c = '\n' := by
  induction s with
  | nil => intro k c hc; simp [scanGo] at hc
  | cons a rest ih =>
    intro k c hc
    cases k with
    | succ k =>
      simp only [scanGo] at hc
      rcases List.mem_cons.mp hc with rfl | hc
      · exact Or.inl (by simp)
      · rcases ih k c hc with h | h
        · exact Or.inl (List.mem_cons_of_mem _ h)
        · exact Or.inr h
    | zero =>
      simp only [scanGo] at hc
      cases hmt : matchTok (a :: rest) with
      | some L =>
        rw [hmt] at hc
        rcases List.mem_cons.mp hc with rfl | hc
        · exact Or.inr rfl
        rcases List.mem_cons.mp hc with rfl | hc
        · exact Or.inl (by simp)
        · rcases ih (L - 1) c hc with h | h
          · exact Or.inl (List.mem_cons_of_mem _ h)
          · exact Or.inr h
      | none =>
        rw [hmt] at hc
        rcases List.mem_cons.mp hc with rfl | hc
        · exact Or.inl (by simp)
        · rcases ih 0 c hc with h | h
          · exact Or.inl (List.mem_cons_of_mem _ h)
          · exact Or.inr h

lemma mem_joinNl {ls : List Str} {c : Char} (h : c ∈ joinNl ls) :
    c = '\n' ∨ ∃ l ∈ ls, c ∈ l := by
  induction ls with
  | nil => simp [joinNl] at h
  | cons l ls ih =>
    cases ls with
    | nil =>
      simp only [joinNl] at h
      exact Or.inr ⟨l, by simp, h⟩
    | cons l2 ls' =>
      simp only [joinNl] at h
      rcases List.mem_append.mp h with h1 | h1
      · exact Or.inr ⟨l, by simp, h1⟩
      · rcases List.mem_cons.mp h1 with rfl | h1
        · exact Or.inl rfl
        · rcases ih h1 with h2 | ⟨l', hl', hcl'⟩
          · exact Or.inl h2
          · exact Or.inr ⟨l', List.mem_cons_of_mem _ hl', hcl'⟩

lemma collapseGo_append_left {l : Str} (hl : '\n' ∉ l) (hne : l ≠ []) :
    ∀ b w, collapseGo b (l ++ w) = l ++ collapseGo false w := by
  induction l with
  | nil => exact absurd rfl hne
  | cons c l' ih =>
    intro b w
    have hc : c ≠ '\n' := fun h => hl (by simp [h])
    simp only [List.cons_append, collapseGo, if_neg hc]
    cases l' with
    | nil => simp [collapseGo]
    | cons d l'' =>
      show c :: collapseGo false ((d :: l'') ++ w) = c :: ((d :: l'') ++ collapseGo false w)
      rw [ih (fun hm => hl (by simp [hm])) (by simp) false w]

lemma collapseGo_true_cons {c : Char} {w : Str} (hc : c ≠ '\n') :
    collapseGo true (c :: w) = collapseGo false (c :: w) := by
  simp [collapseGo, hc]

lemma joinNl_cons_ne (l2 : Str) (ls' : List Str) :
    ∃ w, joinNl (l2 :: ls') = l2 ++ w := by
  cases ls' with
  | nil => exact ⟨[], by simp [joinNl]⟩
  | cons a b => exact ⟨'\n' :: joinNl (a :: b), rfl⟩

lemma collapse_join {ls : List Str} (h : ∀ l ∈ ls, l ≠ [] ∧ '\n' ∉ l) :
    collapse (joinNl ls) = joinNl ls := by
  induction ls with
  | nil => rfl
  | cons l ls ih =>
    obtain ⟨hne, hnl⟩ := h l (by simp)
    cases ls with
    | nil =>
      show collapseGo false (joinNl [l]) = joinNl [l]
      simp only [joinNl]
      have := collapseGo_append_left hnl hne false []
      simpa [collapseGo] using this
    | cons l2 ls' =>
      obtain ⟨hne2, hnl2⟩ := h l2 (by simp)
      show collapseGo false (joinNl (l :: l2 :: ls')) = joinNl (l :: l2 :: ls')
      simp only [joinNl]
      rw [collapseGo_append_left hnl hne false ('\n' :: joinNl (l2 :: ls'))]
      have hnlstep : collapseGo false ('\n' :: joinNl (l2 :: ls')) =
          '\n' :: collapseGo true (joinNl (l2 :: ls')) := by
        simp [collapseGo]
      rw [hnlstep]
      have hcoll : collapseGo true (joinNl (l2 :: ls')) = joinNl (l2 :: ls') := by
        obtain ⟨w, hw⟩ := joinNl_cons_ne l2 ls'
        obtain ⟨c, l2', rfl⟩ : ∃ c t, l2 = c :: t := by
          cases l2 with
          | nil => exact absurd rfl hne2
          | cons c t => exact ⟨c, t, rfl⟩
        have hc : c ≠ '\n' := fun hcc => hnl2 (by simp [hcc])
        rw [hw, List.cons_append, collapseGo_true_cons hc, ← List.cons_append, ← hw]
        exact ih (fun l' hl' => h l' (List.mem_cons_of_mem _ hl'))
      rw [hcoll]

lemma clean_rescan {ls : List Str}
    (h : ∀ l ∈ ls, l ≠ [] ∧ '\n' ∉ l ∧ trim l = l ∧ lineStable l) :
    cleanLines (scanGo 0 (joinNl ls)) = ls := by
  induction ls with
  | nil => rfl
  | cons l ls ih =>
    obtain ⟨hne, hnl, htr, hst⟩ := h l (by simp)
    cases ls with
    | nil =>
      show cleanLines (scanGo 0 (joinNl [l])) = [l]
      simp only [joinNl]
      rcases hst with hs | hs
      · rw [hs]
        simp only [cleanLines, splitNl_cons_nl, splitNl_free hnl]
        simp [htr, trim_nil, List.isEmpty_iff, hne]
      · rw [hs]
        simp only [cleanLines, splitNl_free hnl]
        simp [htr, trim_nil, List.isEmpty_iff, hne]
    | cons l2 ls' =>
      show cleanLines (scanGo 0 (joinNl (l :: l2 :: ls'))) = l :: l2 :: ls'
      simp only [joinNl]
      rw [scan_app_nl]
      have hihres := ih (fun l' hl' => h l' (List.mem_cons_of_mem _ hl'))
      rcases hst with hs | hs
      · rw [hs]
        rw [show ('\n' :: l) ++ '\n' :: scanGo 0 (joinNl (l2 :: ls')) =
          '\n' :: (l ++ '\n' :: scanGo 0 (joinNl (l2 :: ls'))) from by simp]
        simp only [cleanLines] at hihres ⊢
        rw [splitNl_cons_nl,
          splitNl_app_free2 hnl _ (splitNl_cons_nl (scanGo 0 (joinNl (l2 :: ls'))))]
        simp only [List.append_nil, List.map_cons, List.filter_cons, htr]
        rw [show trim ([] : Str) = [] from rfl]
        simp only [List.isEmpty_nil, Bool.not_true]
        rw [if_neg (by simp)]
        rw [if_pos (by simpa [List.isEmpty_iff] using hne)]
        rw [hihres]
      · rw [hs]
        simp only [cleanLines] at hihres ⊢
        rw [splitNl_app_free2 hnl _ (splitNl_cons_nl (scanGo 0 (joinNl (l2 :: ls'))))]
        simp only [List.append_nil, List.map_cons, List.filter_cons, htr]
        rw [if_pos (by simpa [List.isEmpty_iff] using hne)]
        rw [hihres]

/-! ### Support lemmas for the split-number analysis -/

lemma trimR_cons (c : Char) (w : Str) :
    trimR (c :: w) =
      if trimR w = [] then (if jsWS c then [] else [c]) else c :: trimR w := by
  have h := trimR_app [c] w
  simp only [List.singleton_append] at h
  rw [h]
  by_cases h2 : trimR w = []
  · rw [if_pos h2, if_pos h2]
    by_cases hws : jsWS c <;> simp [trimR, List.dropWhile_cons, hws]
  · rw [if_neg h2, if_neg h2]

lemma trim_comm (w : Str) : trimL (trimR w) = trimR (trimL w) := by
  induction w with
  | nil => rfl
  | cons c w' ih =>
    by_cases hws : jsWS c
    · have hL : trimL (c :: w') = trimL w' := by
        simp [trimL, List.dropWhile_cons, hws]
      rw [hL, ← ih, trimR_cons]
      by_cases h2 : trimR w' = []
      · rw [if_pos h2, if_pos hws, h2]
      · rw [if_neg h2]
        simp [trimL, List.dropWhile_cons, hws]
    · have hwsf : jsWS c = false := by simpa using hws
      have hL : trimL (c :: w') = c :: w' := trimL_cons_nonws hwsf
      rw [hL, trimR_cons]
      by_cases h2 : trimR w' = []
      · rw [if_pos h2, if_neg hws]
        exact trimL_cons_nonws hwsf
      · rw [if_neg h2]
        exact trimL_cons_nonws hwsf

lemma trimR_nil_all {w : Str} : trimR w = [] ↔ ∀ c ∈ w, jsWS c = true := by
  rw [trimR_eq_nil_iff, List.dropWhile_eq_nil_iff]
  constructor
  · intro h c hc
    exact h c (List.mem_reverse.mpr hc)
  · intro h c hc
    exact h c (List.mem_reverse.mp hc)

lemma trim_nil_all {w : Str} : trim w = [] ↔ ∀ c ∈ w, jsWS c = true := by
  constructor
  · intro h c hc
    by_contra hn
    have hws : jsWS c = false := by simpa using hn
    have h1 : trimL w ≠ [] := by
      intro hnil
      rw [trimL, List.dropWhile_eq_nil_iff] at hnil
      rw [hnil c hc] at hws
      simp at hws
    have h2 : ∀ e ∈ trimL w, jsWS e = true := by
      rw [trim] at h
      exact trimR_nil_all.mp h
    cases he : trimL w with
    | nil => exact h1 he
    | cons e w2 =>
      have := dropWhile_head_false (p := jsWS) (y := w) he
      have h3 := h2 e (by rw [he]; simp)
      rw [this] at h3
      simp at h3
  · intro h
    rw [trim, show trimL w = [] from by
      rw [trimL, List.dropWhile_eq_nil_iff]; exact h]
    rfl

lemma collapseGo_no_nl {b : Str} (h : '\n' ∉ b) : ∀ flag, collapseGo flag b = b := by
  induction b with
  | nil => intro flag; rfl
  | cons c rest ih =>
    intro flag
    have hc : c ≠ '\n' := fun hcc => h (by simp [hcc])
    simp only [collapseGo, if_neg hc]
    rw [ih (fun hm => h (by simp [hm])) false]

lemma isHeaderLine_head {c : Char} (w : Str) (h1 : Char.toLower c ≠ 't')
    (h2 : Char.toLower c ≠ 's') (h3 : Char.toLower c ≠ 'c') :
    isHeaderLine (c :: w) = false := by
  simp only [isHeaderLine, lowerStr, List.map_cons]
  have e1 : ¬(Char.toLower c :: w.map Char.toLower = ['t','o','p','i','c']) := by
    intro hx
    injection hx with ha _
    exact h1 ha
  have e2 : ¬((Char.toLower c :: w.map Char.toLower).take 3 = ['s','u','b']) := by
    intro hx
    rw [show (3 : Nat) = 2 + 1 from rfl, List.take_succ_cons] at hx
    injection hx with ha _
    exact h2 ha
  have e3 : ¬(Char.toLower c :: w.map Char.toLower =
      ['s','p','e','c','i','f','i','c',' ','o','u','t','c','o','m','e']) := by
    intro hx
    injection hx with ha _
    exact h2 ha
  have e4 : ¬(Char.toLower c :: w.map Char.toLower =
      ['s','p','e','c','i','f','i','c',' ','o','u','t','c','o','m','e','s']) := by
    intro hx
    injection hx with ha _
    exact h2 ha
  have e5 : ¬(Char.toLower c :: w.map Char.toLower = ['c','o','n','t','e','n','t']) := by
    intro hx
    injection hx with ha _
    exact h3 ha
  simp only [e1, e2, e3, e4, e5, decide_False, Bool.false_and, Bool.and_false,
    Bool.or_false, Bool.false_or]

lemma numberOnly_match {N : Str} (h : numberOnly N = true) :
    matchTok N = some N.length := by
  simpa [numberOnly] using h

lemma numberOnly_shape {N : Str} (h : numberOnly N = true) : ∃ N', N = '1' :: N' := by
  obtain ⟨c, d, rest, hs, hcd, _⟩ := matchTok_some_elim (numberOnly_match h)
  have hc : c = '1' := by
    have := hcd
    simp only [Bool.and_eq_true, decide_eq_true_eq] at this
    exact this.1
  exact ⟨d :: rest, by rw [hs, hc]⟩

lemma numberOnly_chars {N : Str} (h : numberOnly N = true) :
    ∀ c ∈ N, Char.isDigit c = true ∨ c = '.' := by
  intro c hc
  have := matchTok_chars (numberOnly_match h)
  rw [List.take_length] at this
  exact this c hc

lemma numberOnly_ne {N : Str} (h : numberOnly N = true) : N ≠ [] := by
  obtain ⟨N', hN⟩ := numberOnly_shape h
  rw [hN]
  simp

lemma numberOnly_no_nl {N : Str} (h : numberOnly N = true) : '\n' ∉ N := by
  intro hm
  rcases numberOnly_chars h '\n' hm with h' | h' <;> exact absurd h' (by decide)

lemma numberOnly_no_cr {N : Str} (h : numberOnly N = true) : '\r' ∉ N := by
  intro hm
  rcases numberOnly_chars h '\r' hm with h' | h' <;> exact absurd h' (by decide)

lemma numberOnly_nonws {N : Str} (h : numberOnly N = true) :
    ∀ c ∈ N, jsWS c = false := by
  intro c hc
  rcases numberOnly_chars h c hc with h' | h'
  · exact digit_not_ws h'
  · subst h'
    decide

lemma trim_self_of_tok {N : Str} (h : numberOnly N = true) : trim N = N := by
  have h1 : trim (N ++ []) = N ++ trimR [] :=
    trim_tok_app (numberOnly_ne h) (numberOnly_nonws h)
  simpa [trimR_nil] using h1

lemma numberOnly_app_sp {N q : Str} (h : numberOnly N = true) :
    numberOnly (N ++ ' ' :: q) = false := by
  have hext : matchTok (N ++ ' ' :: q) = some N.length := by
    rw [matchTok_stopchar (by decide) (by decide)]
    exact numberOnly_match h
  simp only [numberOnly, hext, decide_eq_false_iff_not]
  intro hx
  injection hx with hx
  simp only [List.length_append, List.length_cons] at hx
  omega

lemma extract_app_sp {N q : Str} (h : numberOnly N = true) :
    extract (N ++ ' ' :: q) = some (N, trimL q) := by
  have hext : matchTok (N ++ ' ' :: q) = some N.length := by
    rw [matchTok_stopchar (by decide) (by decide)]
    exact numberOnly_match h
  simp only [extract, hext, Option.map_some']
  congr 1
  rw [List.take_left, List.drop_left]
  simp [trimL, List.dropWhile_cons, show jsWS ' ' = true from by decide]

lemma scan_tok (N : Str) (h : numberOnly N = true) : scanGo 0 N = '\n' :: N := by
  rw [scan_match (numberOnly_match h)]
  simp [List.take_length, List.drop_length, scanGo]

lemma obc_step_pending {N : Str} (hN : numberOnly N = true) :
    obcLine initOState N = { initOState with pending := some N } := by
  obtain ⟨N', hN1⟩ := numberOnly_shape hN
  have hhd : isHeaderLine N = false := by
    rw [hN1]
    exact isHeaderLine_head _ (by decide) (by decide) (by decide)
  simp [obcLine, hhd, hN]

lemma obc_two_step {N fp : Str} (hN : numberOnly N = true)
    (hnm : ∀ i, matchTok ((trim fp).drop i) = none)
    (hhd : isHeaderLine (trim fp) = false) :
    obcLine (obcLine initOState N) (trim fp) =
      obcLine initOState (N ++ ' ' :: trimR fp) := by
  rw [obc_step_pending hN]
  obtain ⟨N', hN1⟩ := numberOnly_shape hN
  have hmtn : matchTok (trim fp) = none := by simpa using hnm 0
  have hno : numberOnly (trim fp) = false := by simp [numberOnly, hmtn]
  have hex : extract (trim fp) = none := by simp [extract, hmtn]
  have hhd2 : isHeaderLine (N ++ ' ' :: trimR fp) = false := by
    rw [hN1, List.cons_append]
    exact isHeaderLine_head _ (by decide) (by decide) (by decide)
  have hno2 := numberOnly_app_sp (q := trimR fp) hN
  have hex2 := extract_app_sp (q := trimR fp) hN
  have htq : trimL (trimR fp) = trim fp := trim_comm fp
  rw [htq] at hex2
  simp [obcLine, hhd, hno, hex, hhd2, hno2, hex2, initOState]

lemma normLines_split {N C : Str} (hN : numberOnly N = true)
    (hC1 : '\n' ∉ C) (hC2 : '\r' ∉ C) :
    normLines (N ++ '\n' :: C) = N :: cleanLines (scanGo 0 C) := by
  have hcr : '\r' ∉ N ++ '\n' :: C := by
    intro hm
    rcases List.mem_append.mp hm with h | h
    · exact numberOnly_no_cr hN h
    · rcases List.mem_cons.mp h with h | h
      · exact absurd h (by decide)
      · exact hC2 h
  have h1 : crnl (N ++ '\n' :: C) = N ++ '\n' :: C := crnl_eq_self hcr
  have h2 : collapse (N ++ '\n' :: C) = N ++ '\n' :: C := by
    show collapseGo false _ = _
    rw [collapseGo_append_left (numberOnly_no_nl hN) (numberOnly_ne hN)]
    have hstep : collapseGo false ('\n' :: C) = '\n' :: collapseGo true C := by
      simp [collapseGo]
    rw [hstep, collapseGo_no_nl hC1 true]
  show cleanLines (scanGo 0 (bulletFix (collapse (crnl (N ++ '\n' :: C))))) = _
  rw [h1, h2, bulletFix_eq, scan_app_nl, scan_tok N hN]
  rw [show ('\n' :: N) ++ '\n' :: scanGo 0 C = '\n' :: (N ++ '\n' :: scanGo 0 C) from rfl]
  simp only [cleanLines, splitNl_cons_nl]
  rw [splitNl_app_free2 (numberOnly_no_nl hN) _ (splitNl_cons_nl (scanGo 0 C))]
  simp only [List.append_nil, List.map_cons, List.filter_cons, trim_nil]
  rw [trim_self_of_tok hN]
  simp only [List.isEmpty_nil, Bool.not_true]
  rw [if_neg (by simp)]
  rw [if_pos (by simpa [List.isEmpty_iff] using numberOnly_ne hN)]

lemma normLines_merge {N C : Str} {t : List Str} (hN : numberOnly N = true)
    (hC1 : '\n' ∉ C) (hC2 : '\r' ∉ C)
    (hsB : splitNl (scanGo 0 C) = firstPiece (scanGo 0 C) :: t) :
    normLines (N ++ ' ' :: C) =
      trim (N ++ ' ' :: firstPiece (scanGo 0 C)) ::
        (t.map trim).filter (fun l => !l.isEmpty) := by
  have hcr : '\r' ∉ N ++ ' ' :: C := by
    intro hm
    rcases List.mem_append.mp hm with h | h
    · exact numberOnly_no_cr hN h
    · rcases List.mem_cons.mp h with h | h
      · exact absurd h (by decide)
      · exact hC2 h
  have hnl : '\n' ∉ N ++ ' ' :: C := by
    intro hm
    rcases List.mem_append.mp hm with h | h
    · exact numberOnly_no_nl hN h
    · rcases List.mem_cons.mp h with h | h
      · exact absurd h (by decide)
      · exact hC1 h
  have h1 : crnl (N ++ ' ' :: C) = N ++ ' ' :: C := crnl_eq_self hcr
  have h2 : collapse (N ++ ' ' :: C) = N ++ ' ' :: C := collapseGo_no_nl hnl false
  have hmt : matchTok (N ++ ' ' :: C) = some N.length := by
    rw [matchTok_stopchar (by decide) (by decide)]
    exact numberOnly_match hN
  show cleanLines (scanGo 0 (bulletFix (collapse (crnl (N ++ ' ' :: C))))) = _
  rw [h1, h2, bulletFix_eq, scan_match hmt, List.take_left, List.drop_left,
    scan_nomatch (matchTok_cons_ne1 (by decide))]
  simp only [cleanLines, splitNl_cons_nl]
  have hx : '\n' ∉ N ++ [' '] := by
    intro hm
    rcases List.mem_append.mp hm with h | h
    · exact numberOnly_no_nl hN h
    · simp at h
  have hassoc : N ++ ' ' :: scanGo 0 C = (N ++ [' ']) ++ scanGo 0 C := by simp
  rw [hassoc, splitNl_app_free2 hx _ hsB]
  simp only [List.map_cons, List.filter_cons, trim_nil]
  rw [show (N ++ [' ']) ++ firstPiece (scanGo 0 C) =
    N ++ ' ' :: firstPiece (scanGo 0 C) from by simp]
  simp only [List.isEmpty_nil, Bool.not_true]
  rw [if_neg (by simp)]
  have hne2 : trim (N ++ ' ' :: firstPiece (scanGo 0 C)) ≠ [] := by
    rw [trim_tok_app (numberOnly_ne hN) (numberOnly_nonws hN)]
    simp [numberOnly_ne hN]
  rw [if_pos (by simpa [List.isEmpty_iff] using hne2)]

lemma cleanLines_decomp {C : Str} {t : List Str}
    (hsB : splitNl (scanGo 0 C) = firstPiece (scanGo 0 C) :: t) :
    cleanLines (scanGo 0 C) =
      (if (trim (firstPiece (scanGo 0 C))).isEmpty then []
        else [trim (firstPiece (scanGo 0 C))]) ++
        (t.map trim).filter (fun l => !l.isEmpty) := by
  simp only [cleanLines, hsB, List.map_cons, List.filter_cons]
  by_cases h : (trim (firstPiece (scanGo 0 C))).isEmpty <;> simp [h]

lemma obc_split_merge (N C : Str) (hN : numberOnly N = true)
    (hC1 : '\n' ∉ C) (hC2 : '\r' ∉ C)
    (hhd : isHeaderLine (trim (firstPiece (scanGo 0 C))) = false) :
    obcTopics (N ++ '\n' :: C) = obcTopics (N ++ ' ' :: C) := by
  obtain ⟨t, hsB⟩ := splitNl_head (scanGo 0 C)
  have hnm : ∀ i, matchTok ((trim (firstPiece (scanGo 0 C))).drop i) = none :=
    nomatch_trim (fun i => fp_nomatch C i)
  have e1 := normLines_split hN hC1 hC2
  have e2 := normLines_merge hN hC1 hC2 hsB
  have e3 := cleanLines_decomp hsB
  unfold obcTopics
  rw [e1, e2, e3]
  by_cases hfp : (trim (firstPiece (scanGo 0 C))).isEmpty
  · rw [if_pos hfp]
    have hfpnil : trim (firstPiece (scanGo 0 C)) = [] := by
      simpa [List.isEmpty_iff] using hfp
    have hallws : ∀ c ∈ firstPiece (scanGo 0 C), jsWS c = true := trim_nil_all.mp hfpnil
    have hR : trimR (' ' :: firstPiece (scanGo 0 C)) = [] := by
      rw [trimR_nil_all]
      intro c hc
      rcases List.mem_cons.mp hc with h | h
      · rw [h]; decide
      · exact hallws c h
    have hhead : trim (N ++ ' ' :: firstPiece (scanGo 0 C)) = N := by
      rw [trim_tok_app (numberOnly_ne hN) (numberOnly_nonws hN), hR, List.append_nil]
    rw [hhead, List.nil_append]
  · rw [if_neg hfp]
    have hfpne : trim (firstPiece (scanGo 0 C)) ≠ [] := by
      simpa [List.isEmpty_iff] using hfp
    have hRne : trimR (firstPiece (scanGo 0 C)) ≠ [] := by
      intro h
      exact hfpne (trim_nil_all.mpr (trimR_nil_all.mp h))
    have hhead : trim (N ++ ' ' :: firstPiece (scanGo 0 C)) =
        N ++ ' ' :: trimR (firstPiece (scanGo 0 C)) := by
      rw [trim_tok_app (numberOnly_ne hN) (numberOnly_nonws hN), trimR_cons, if_neg hRne]
    rw [hhead]
    simp only [List.singleton_append, List.foldl_cons]
    rw [obc_two_step hN hnm hhd]

/-- C3: split-number non-regression holds only away from the header denylist:
if the caption's first normalized piece is not a header line, parsing `N`
alone on one line followed by caption `C` agrees with parsing `N` and `C`
concatenated on one line.  (The unrestricted claim is refuted by
`C3_counterexample`: a caption that matches the header regex is skipped
before the pending-number merge, so the pending token is lost.) -/
theorem C3_split_number_merge (N C subject : Str) (hN : numberOnly N = true)
    (hC1 : '\n' ∉ C) (hC2 : '\r' ∉ C)
    (hhd : isHeaderLine (trim (firstPiece (scanBreaks C))) = false) :
    parseOBCSyllabus (N ++ '\n' :: C) subject =
      parseOBCSyllabus (N ++ ' ' :: C) subject := by
  unfold parseOBCSyllabus
  rw [obc_split_merge N C hN hC1 hC2 hhd]

/-- C3 counterexample: with caption "Content" (which matches the header
denylist), the split form parses to `none` while the merged form parses to a
one-topic tree, refuting the claim as stated. -/
theorem C3_counterexample :
    parseOBCSyllabus ("10.1\nContent".toList) "S".toList ≠
      parseOBCSyllabus ("10.1 Content".toList) "S".toList := by decide

/-- C3 witness: the amended theorem applied at a concrete non-header caption. -/
theorem C3_witness :
    parseOBCSyllabus ("10.1".toList ++ '\n' :: "Mechanics".toList) "S".toList =
      parseOBCSyllabus ("10.1".toList ++ ' ' :: "Mechanics".toList) "S".toList :=
  C3_split_number_merge ("10.1".toList) ("Mechanics".toList) ("S".toList)
    (by decide) (by decide) (by decide) (by decide)

lemma normLines_props (rawText : Str) :
    ∀ l ∈ normLines rawText, l ≠ [] ∧ '\n' ∉ l ∧ trim l = l ∧ lineStable l := by
  intro l hl
  exact cleanLines_stable (bulletFix (collapse (crnl rawText))) l hl

lemma normLines_no_cr (rawText : Str) : ∀ l ∈ normLines rawText, '\r' ∉ l := by
  intro l hl hm
  simp only [normLines, cleanLines, List.mem_filter, List.mem_map] at hl
  obtain ⟨⟨p, hp, rfl⟩, _⟩ := hl
  have h1 : '\r' ∈ scanBreaks (bulletFix (collapse (crnl rawText))) :=
    splitNl_chars _ p hp '\r' (trim_subset '\r' hm)
  rcases scanGo_chars 0 '\r' h1 with h2 | h2
  · rw [bulletFix_eq] at h2
    exact crnl_no_cr rawText (collapseGo_subset false '\r' h2)
  · exact absurd h2 (by decide)

/-- C8: the line-based normalizer is idempotent — running the normalization
pipeline (carriage-return canonicalization, blank-line collapsing, newline
insertion before valid-range numbering tokens, trim-split into non-empty
lines) on the newline-rejoined output of a first run reproduces the first
run's line sequence exactly. -/
theorem C8_normalizer_idempotent (rawText : Str) :
    normLines (joinNl (normLines rawText)) = normLines rawText := by
  have hprops := normLines_props rawText
  have hcr : '\r' ∉ joinNl (normLines rawText) := by
    intro hm
    rcases mem_joinNl hm with h | ⟨l, hl, hc⟩
    · exact absurd h (by decide)
    · exact normLines_no_cr rawText l hl hc
  show cleanLines (scanBreaks (bulletFix (collapse (crnl (joinNl (normLines rawText)))))) = _
  rw [crnl_eq_self hcr, bulletFix_eq,
    collapse_join (fun l hl => ⟨(hprops l hl).1, (hprops l hl).2.1⟩)]
  exact clean_rescan hprops

/-! ### Branch equations for the OBC line loop -/

lemma extract_segs {l num txt : Str} (h : extract l = some (num, txt)) :
    2 ≤ segCount num ∧ segCount num ≤ 4 := by
  cases hm : matchTok l with
  | none => simp [extract, hm] at h
  | some L =>
    simp only [extract, hm, Option.map_some', Option.some.injEq, Prod.mk.injEq] at h
    have ha := matchTok_anatomy hm
    rw [← h.1]
    unfold segCount
    omega

lemma extract_head {l num txt : Str} (h : extract l = some (num, txt)) :
    ∃ l', l = '1' :: l' := by
  cases hm : matchTok l with
  | none => simp [extract, hm] at h
  | some L =>
    obtain ⟨c, d, rest, hs, hcd, _⟩ := matchTok_some_elim hm
    have hc : c = '1' := by
      simp only [Bool.and_eq_true, decide_eq_true_eq] at hcd
      exact hcd.1
    exact ⟨d :: rest, by rw [hs, hc]⟩

lemma numberOnly_segs {n : Str} (h : numberOnly n = true) :
    2 ≤ segCount n ∧ segCount n ≤ 4 := by
  have ha := matchTok_anatomy (numberOnly_match h)
  rw [List.take_length] at ha
  unfold segCount
  omega

lemma extract_not_bullet {l num txt : Str} (h : extract l = some (num, txt)) :
    bulletStart l = false := by
  obtain ⟨l', rfl⟩ := extract_head h
  simp [bulletStart]

lemma extract_not_header {l num txt : Str} (h : extract l = some (num, txt)) :
    isHeaderLine l = false := by
  obtain ⟨l', rfl⟩ := extract_head h
  exact isHeaderLine_head _ (by decide) (by decide) (by decide)

lemma obcLine_header {st : OState} {l : Str} (hhd : isHeaderLine l = true) :
    obcLine st l = st := by
  simp [obcLine, hhd]

lemma obcLine_numonly {st : OState} {l : Str} (hhd : isHeaderLine l = false)
    (hno : numberOnly l = true) :
    obcLine st l = { st with pending := some l } := by
  simp [obcLine, hhd, hno]

lemma obcLine_topic {st : OState} {l num txt : Str} (hhd : isHeaderLine l = false)
    (hno : numberOnly l = false) (hext : extract l = some (num, txt))
    (hseg : segCount num = 2) :
    obcLine st l =
      ⟨st.topics ++ [⟨trim (num ++ ' ' :: txt), []⟩], true, false, st.pending⟩ := by
  cases st
  simp [obcLine, hhd, hno, hext, hseg]

lemma obcLine_sub {st : OState} {l num txt : Str} (hhd : isHeaderLine l = false)
    (hno : numberOnly l = false) (hext : extract l = some (num, txt))
    (hseg : segCount num = 3) (hct : st.hasCT = true) :
    obcLine st l =
      ⟨updateLast st.topics (fun tp =>
          { tp with subtopics := tp.subtopics ++ [⟨trim (num ++ ' ' :: txt), [], [], [], []⟩] }),
        st.hasCT, true, st.pending⟩ := by
  cases st
  simp_all [obcLine, hhd, hno, hext, hseg]

lemma obcLine_sub_orphan {st : OState} {l num txt : Str} (hhd : isHeaderLine l = false)
    (hno : numberOnly l = false) (hext : extract l = some (num, txt))
    (hseg : segCount num = 3) (hct : st.hasCT = false) :
    obcLine st l = st := by
  have hbul := extract_not_bullet hext
  cases st
  simp_all [obcLine, hhd, hno, hext, hseg, hbul]

lemma obcLine_out {st : OState} {l num txt : Str} (hhd : isHeaderLine l = false)
    (hno : numberOnly l = false) (hext : extract l = some (num, txt))
    (hseg : segCount num = 4) (hcs : st.hasCS = true) :
    obcLine st l =
      ⟨updateLast st.topics (fun tp =>
          { tp with subtopics := (updateLast tp.subtopics (fun sb =>
            { sb with specificOutcomes := sb.specificOutcomes ++ [trim (num ++ ' ' :: txt)] })) }),
        st.hasCT, st.hasCS, st.pending⟩ := by
  cases st
  simp_all [obcLine, hhd, hno, hext, hseg]

lemma obcLine_out_orphan {st : OState} {l num txt : Str} (hhd : isHeaderLine l = false)
    (hno : numberOnly l = false) (hext : extract l = some (num, txt))
    (hseg : segCount num = 4) (hcs : st.hasCS = false) :
    obcLine st l = st := by
  have hbul := extract_not_bullet hext
  cases st
  simp_all [obcLine, hhd, hno, hext, hseg, hbul]

lemma obcLine_nonparse {st : OState} {l : Str} (hhd : isHeaderLine l = false)
    (hno : numberOnly l = false) (hext : extract l = none)
    (hpd : st.pending = none) :
    obcLine st l = { st with pending := none } := by
  cases st
  simp_all [obcLine, hhd, hno, hext]

lemma obcLine_merge_topic {st : OState} {l n : Str} (hhd : isHeaderLine l = false)
    (hno : numberOnly l = false) (hext : extract l = none)
    (hpd : st.pending = some n) (hseg : segCount n = 2) :
    obcLine st l = ⟨st.topics ++ [⟨trim (n ++ ' ' :: l), []⟩], true, false, none⟩ := by
  cases st
  simp_all [obcLine, hhd, hno, hext, hseg]

lemma obcLine_merge_sub {st : OState} {l n : Str} (hhd : isHeaderLine l = false)
    (hno : numberOnly l = false) (hext : extract l = none)
    (hpd : st.pending = some n) (hseg : segCount n = 3) (hct : st.hasCT = true) :
    obcLine st l =
      ⟨updateLast st.topics (fun tp =>
          { tp with subtopics := tp.subtopics ++ [⟨trim (n ++ ' ' :: l), [], [], [], []⟩] }),
        st.hasCT, true, none⟩ := by
  cases st
  simp_all [obcLine, hhd, hno, hext, hseg]

lemma obcLine_merge_sub_orphan {st : OState} {l n : Str} (hhd : isHeaderLine l = false)
    (hno : numberOnly l = false) (hext : extract l = none)
    (hpd : st.pending = some n) (hseg : segCount n = 3) (hct : st.hasCT = false)
    (hcs : st.hasCS = false) :
    obcLine st l = { st with pending := none } := by
  cases st
  simp_all [obcLine, hhd, hno, hext, hseg]

lemma obcLine_merge_out {st : OState} {l n : Str} (hhd : isHeaderLine l = false)
    (hno : numberOnly l = false) (hext : extract l = none)
    (hpd : st.pending = some n) (hseg : segCount n = 4) (hcs : st.hasCS = true) :
    obcLine st l =
      ⟨updateLast st.topics (fun tp =>
          { tp with subtopics := (updateLast tp.subtopics (fun sb =>
            { sb with specificOutcomes := sb.specificOutcomes ++ [trim (n ++ ' ' :: l)] })) }),
        st.hasCT, st.hasCS, none⟩ := by
  cases st
  simp_all [obcLine, hhd, hno, hext, hseg]

lemma obcLine_merge_out_orphan {st : OState} {l n : Str} (hhd : isHeaderLine l = false)
    (hno : numberOnly l = false) (hext : extract l = none)
    (hpd : st.pending = some n) (hseg : segCount n = 4) (hcs : st.hasCS = false) :
    obcLine st l = { st with pending := none } := by
  cases st
  simp_all [obcLine, hhd, hno, hext, hseg]

/-- C2: both parsers report failure (`none`) exactly when the accumulated
topic sequence is empty at end of input, and every non-null result carries
at least one topic. -/
theorem C2_zero_topics_failure (rawText subject : Str)
    (rows : List (List Str)) (subject2 : Str) :
    (parseOBCSyllabus rawText subject = none ↔ obcTopics rawText = []) ∧
    (parseOBCSyllabus rawText subject).all (fun r => !r.topics.isEmpty) = true ∧
    (parseCBCSyllabusTable rows subject2 = none ↔ cbcTopics rows = []) ∧
    (parseCBCSyllabusTable rows subject2).all (fun r => !r.topics.isEmpty) = true := by
  unfold parseOBCSyllabus parseCBCSyllabusTable
  by_cases h1 : (obcTopics rawText).isEmpty <;>
    by_cases h2 : (cbcTopics rows).isEmpty <;>
      simp_all [List.isEmpty_iff, Option.all]

lemma all_updateLast {p : α → Bool} {l : List α} (h : l.all p = true)
    (f : α → α) (hf : ∀ a, p a = true → p (f a) = true) :
    (updateLast l f).all p = true := by
  induction l with
  | nil => simp [updateLast]
  | cons a rest ih =>
    cases rest with
    | nil =>
      simp only [List.all_cons, List.all_nil, Bool.and_true] at h
      simp [updateLast, hf a h]
    | cons b rest2 =>
      simp only [updateLast, List.all_cons, Bool.and_eq_true] at h ⊢
      exact ⟨h.1, by simpa using ih (by simp [h.2.1, h.2.2])⟩

lemma all_updAt {p : α → Bool} {l : List α} (h : l.all p = true)
    (n : Nat) (f : α → α) (hf : ∀ a, p a = true → p (f a) = true) :
    (updAt l n f).all p = true := by
  induction l generalizing n with
  | nil => simp [updAt]
  | cons a rest ih =>
    cases n with
    | zero =>
      simp only [updAt, List.all_cons, Bool.and_eq_true] at h ⊢
      exact ⟨hf a h.1, h.2⟩
    | succ m =>
      simp only [updAt, List.all_cons, Bool.and_eq_true] at h ⊢
      exact ⟨h.1, ih h.2 m⟩

lemma obcLine_inv {st : OState} (hinv : OInv st) (l : Str) : OInv (obcLine st l) := by
  obtain ⟨hb, hcsct, hp⟩ := hinv
  by_cases hhd : isHeaderLine l = true
  · rw [obcLine_header hhd]; exact ⟨hb, hcsct, hp⟩
  have hhd' : isHeaderLine l = false := by simpa using hhd
  by_cases hno : numberOnly l = true
  · rw [obcLine_numonly hhd' hno]
    refine ⟨hb, hcsct, fun n hn => ?_⟩
    cases hn
    exact numberOnly_segs hno
  have hno' : numberOnly l = false := by simpa using hno
  cases hext : extract l with
  | some p =>
    obtain ⟨num, txt⟩ := p
    obtain ⟨hs2, hs4⟩ := extract_segs hext
    have hseg : segCount num = 2 ∨ segCount num = 3 ∨ segCount num = 4 := by omega
    rcases hseg with hseg | hseg | hseg
    · rw [obcLine_topic hhd' hno' hext hseg]
      refine ⟨?_, by simp, hp⟩
      simp only [bucketsEmpty, List.all_append] at hb ⊢
      simp [hb]
    · by_cases hct : st.hasCT = true
      · rw [obcLine_sub hhd' hno' hext hseg hct]
        refine ⟨?_, fun _ => hct, hp⟩
        refine all_updateLast hb _ (fun tp htp => ?_)
        simp only [List.all_append] at htp ⊢
        simp [htp]
      · rw [obcLine_sub_orphan hhd' hno' hext hseg (by simpa using hct)]
        exact ⟨hb, hcsct, hp⟩
    · by_cases hcs : st.hasCS = true
      · rw [obcLine_out hhd' hno' hext hseg hcs]
        refine ⟨?_, hcsct, hp⟩
        refine all_updateLast hb _ (fun tp htp => ?_)
        refine all_updateLast htp _ (fun sb hsb => ?_)
        simpa using hsb
      · rw [obcLine_out_orphan hhd' hno' hext hseg (by simpa using hcs)]
        exact ⟨hb, hcsct, hp⟩
  | none =>
    cases hpd : st.pending with
    | none =>
      rw [obcLine_nonparse hhd' hno' hext hpd]
      exact ⟨hb, hcsct, by simp⟩
    | some n =>
      obtain ⟨hs2, hs4⟩ := hp n hpd
      have hseg : segCount n = 2 ∨ segCount n = 3 ∨ segCount n = 4 := by omega
      rcases hseg with hseg | hseg | hseg
      · rw [obcLine_merge_topic hhd' hno' hext hpd hseg]
        refine ⟨?_, by simp, by simp⟩
        simp only [bucketsEmpty, List.all_append] at hb ⊢
        simp [hb]
      · by_cases hct : st.hasCT = true
        · rw [obcLine_merge_sub hhd' hno' hext hpd hseg hct]
          refine ⟨?_, fun _ => hct, by simp⟩
          refine all_updateLast hb _ (fun tp htp => ?_)
          simp only [List.all_append] at htp ⊢
          simp [htp]
        · have hct' : st.hasCT = false := by simpa using hct
          have hcs' : st.hasCS = false := by
            cases hcs2 : st.hasCS
            · rfl
            · exact absurd (hcsct hcs2) (by simp [hct'])
          rw [obcLine_merge_sub_orphan hhd' hno' hext hpd hseg hct' hcs']
          exact ⟨hb, hcsct, by simp⟩
      · by_cases hcs : st.hasCS = true
        · rw [obcLine_merge_out hhd' hno' hext hpd hseg hcs]
          refine ⟨?_, hcsct, by simp⟩
          refine all_updateLast hb _ (fun tp htp => ?_)
          refine all_updateLast htp _ (fun sb hsb => ?_)
          simpa using hsb
        · rw [obcLine_merge_out_orphan hhd' hno' hext hpd hseg (by simpa using hcs)]
          exact ⟨hb, hcsct, by simp⟩

lemma obcTopics_bucketsEmpty (rawText : Str) :
    bucketsEmpty (obcTopics rawText) = true := by
  unfold obcTopics
  have h : ∀ (lines : List Str) (st : OState), OInv st → OInv (lines.foldl obcLine st) := by
    intro lines
    induction lines with
    | nil => intro st h; exact h
    | cons l rest ih =>
      intro st h
      exact ih _ (obcLine_inv h l)
  exact (h (normLines rawText) initOState ⟨rfl, by simp [initOState], by simp [initOState]⟩).1

/-- C6: the bullet-content classifier of server.js lines 354-371 is dead
code — because `if (!parsed) continue` runs first, the branch is reached
only with a parsed number of 2-4 segments, whose unguarded cases leave the
bullet test false or the subtopic pointer closed — so every
knowledge/skills/values bucket of every parsed tree is empty and the
described keyword classification never takes place. -/
theorem C6_classifier_dead (rawText : Str) :
    (obcTopics rawText).all (fun t => t.subtopics.all (fun s =>
      s.knowledge.isEmpty && s.skills.isEmpty && s.values.isEmpty)) = true :=
  obcTopics_bucketsEmpty rawText

lemma splitBulletContent_lens (h : Str) :
    (splitBulletContent h).all (fun e => decide (2 < e.length)) = true := by
  unfold splitBulletContent
  by_cases hh : h.isEmpty
  · simp [hh]
  · simp only [hh, Bool.false_eq_true, if_false]
    rw [List.all_eq_true]
    intro e he
    exact (List.mem_filter.mp he).2

/-! ### Stage equations for the CBC row loop -/

lemma cbcTopicStage_none (st : CState) : cbcTopicStage st none = st := rfl

lemma cbcTopicStage_reuse {st : CState} {name : Str} {j : Nat}
    (hf : st.topics.findIdx? (fun t => t.name == name) = some j) :
    cbcTopicStage st (some name) = { st with ct := some j } := by
  simp [cbcTopicStage, hf]

lemma cbcTopicStage_new {st : CState} {name : Str}
    (hf : st.topics.findIdx? (fun t => t.name == name) = none) :
    cbcTopicStage st (some name) =
      { st with topics := st.topics ++ [⟨name, []⟩],
                ct := some st.topics.length, cs := none } := by
  simp [cbcTopicStage, hf]

lemma cbcSubStage_none (st : CState) : cbcSubStage st none = st := by
  unfold cbcSubStage
  cases st.ct <;> rfl

lemma cbcSubStage_noct {st : CState} (fs : Option Str) (hct : st.ct = none) :
    cbcSubStage st fs = st := by
  unfold cbcSubStage
  rw [hct]
  cases fs <;> rfl

lemma cbcSubStage_reuse {st : CState} {name : Str} {j k : Nat} (hct : st.ct = some j)
    (hf : ((st.topics.getD j ⟨[], []⟩).subtopics).findIdx?
      (fun s => s.name == name) = some k) :
    cbcSubStage st (some name) = { st with cs := some (j, k) } := by
  cases st
  simp_all [cbcSubStage]

lemma cbcSubStage_new {st : CState} {name : Str} {j : Nat} (hct : st.ct = some j)
    (hf : ((st.topics.getD j ⟨[], []⟩).subtopics).findIdx?
      (fun s => s.name == name) = none) :
    cbcSubStage st (some name) =
      ⟨updAt st.topics j
          (fun t => { t with subtopics := t.subtopics ++ [⟨name, []⟩] }),
        st.ct, some (j, (st.topics.getD j ⟨[], []⟩).subtopics.length)⟩ := by
  obtain ⟨tps, ct, cs⟩ := st
  replace hct : ct = some j := hct
  subst hct
  replace hf : ((tps.getD j ⟨[], []⟩).subtopics).findIdx? (fun s => s.name == name) = none := hf
  simp only [cbcSubStage, hf]

lemma cbcCompStage_none (st : CState) (ci : Option Nat) (hs : List Str) :
    cbcCompStage st none ci hs = st := by
  unfold cbcCompStage
  cases st.cs <;> rfl

lemma cbcCompStage_nocs {st : CState} (fc : Option Str) (ci : Option Nat)
    (hs : List Str) (hcs : st.cs = none) : cbcCompStage st fc ci hs = st := by
  unfold cbcCompStage
  rw [hcs]
  cases fc <;> rfl

lemma cbcCompStage_dup {st : CState} {desc : Str} {j k : Nat} (ci : Option Nat)
    (hs : List Str) (hcs : st.cs = some (j, k))
    (hdup : ((((st.topics.getD j ⟨[], []⟩).subtopics).getD k
        ⟨[], []⟩).specificCompetences).any (fun c => c.description == desc) = true) :
    cbcCompStage st (some desc) ci hs = st := by
  cases st
  simp_all [cbcCompStage]

lemma cbcCompStage_push {st : CState} {desc : Str} {j k : Nat} (ci : Option Nat)
    (hs : List Str) (hcs : st.cs = some (j, k))
    (hdup : ((((st.topics.getD j ⟨[], []⟩).subtopics).getD k
        ⟨[], []⟩).specificCompetences).any (fun c => c.description == desc) = false) :
    cbcCompStage st (some desc) ci hs =
      ⟨updAt st.topics j
          (fun t => { t with subtopics := (updAt t.subtopics k
            (fun s => { s with specificCompetences := s.specificCompetences ++
              [⟨desc,
                (if ci.getD 0 + 1 < hs.length
                  then splitBulletContent (hs.getD (ci.getD 0 + 1) []) else []),
                (if ci.getD 0 + 2 < hs.length
                  then splitBulletContent (hs.getD (ci.getD 0 + 2) []) else [])⟩] })) }),
        st.ct, st.cs⟩ := by
  cases st
  simp_all [cbcCompStage]

lemma cbcTopicStage_lens {st : CState} (h : compLensOk st.topics = true)
    (ft : Option Str) : compLensOk (cbcTopicStage st ft).topics = true := by
  cases ft with
  | none => rw [cbcTopicStage_none]; exact h
  | some name =>
    cases hf : st.topics.findIdx? (fun t => t.name == name) with
    | some j => rw [cbcTopicStage_reuse hf]; exact h
    | none =>
      rw [cbcTopicStage_new hf]
      simp only [compLensOk, List.all_append] at h ⊢
      simp [h]

lemma cbcSubStage_lens {st : CState} (h : compLensOk st.topics = true)
    (fs : Option Str) : compLensOk (cbcSubStage st fs).topics = true := by
  cases fs with
  | none => rw [cbcSubStage_none]; exact h
  | some name =>
    cases hct : st.ct with
    | none => rw [cbcSubStage_noct _ hct]; exact h
    | some j =>
      cases hf : ((st.topics.getD j ⟨[], []⟩).subtopics).findIdx?
          (fun s => s.name == name) with
      | some k => rw [cbcSubStage_reuse hct hf]; exact h
      | none =>
        rw [cbcSubStage_new hct hf]
        refine all_updAt h j _ (fun tp htp => ?_)
        simp only [List.all_append] at htp ⊢
        simp [htp]

lemma cbcCompStage_lens {st : CState} (h : compLensOk st.topics = true)
    (fc : Option Str) (ci : Option Nat) (hs : List Str) :
    compLensOk (cbcCompStage st fc ci hs).topics = true := by
  cases fc with
  | none => rw [cbcCompStage_none]; exact h
  | some desc =>
    cases hcs : st.cs with
    | none => rw [cbcCompStage_nocs _ _ _ hcs]; exact h
    | some jk =>
      obtain ⟨j, k⟩ := jk
      cases hdup : ((((st.topics.getD j ⟨[], []⟩).subtopics).getD k
          ⟨[], []⟩).specificCompetences).any (fun c => c.description == desc) with
      | true => rw [cbcCompStage_dup _ _ hcs hdup]; exact h
      | false =>
        rw [cbcCompStage_push _ _ hcs hdup]
        refine all_updAt h j _ (fun tp htp => ?_)
        refine all_updAt htp k _ (fun sb hsb => ?_)
        simp only [List.all_append, Bool.and_eq_true] at hsb ⊢
        refine ⟨hsb, ?_⟩
        simp only [List.all_cons, List.all_nil, Bool.and_true, List.all_append,
          Bool.and_eq_true]
        constructor
        · by_cases h1 : ci.getD 0 + 1 < hs.length <;>
            simp [h1, splitBulletContent_lens]
        · by_cases h2 : ci.getD 0 + 2 < hs.length <;>
            simp [h2, splitBulletContent_lens]

lemma cbcRow_lens {st : CState} (h : compLensOk st.topics = true)
    (row : List Str) : compLensOk (cbcRow st row).topics = true := by
  unfold cbcRow
  by_cases hlen : row.length < 2
  · simp [hlen, h]
  · simp only [hlen, if_false]
    by_cases hhd : isHeaderRow (row.map extractText) = true
    · simp [hhd, h]
    · have hhd' : isHeaderRow (row.map extractText) = false := by simpa using hhd
      simp only [hhd', Bool.false_eq_true, if_false]
      obtain ⟨ft, fs, fc, ci⟩ := cbcScan (row.map extractText) 0 none none none none
      exact cbcCompStage_lens (cbcSubStage_lens (cbcTopicStage_lens h ft) fs) fc ci row

lemma cbcTopics_lens (rows : List (List Str)) :
    compLensOk (cbcTopics rows) = true := by
  unfold cbcTopics
  have h : ∀ (rs : List (List Str)) (st : CState), compLensOk st.topics = true →
      compLensOk ((rs.foldl cbcRow st)).topics = true := by
    intro rs
    induction rs with
    | nil => intro st h; exact h
    | cons r rest ih => intro st h; exact ih _ (cbcRow_lens h r)
  exact h rows initCState rfl

/-- C9: entries shorter than 3 characters never reach a stored bucket: in
every OBC tree the knowledge/skills/values buckets contain no short entry
(they are in fact always empty), and in every CBC tree every stored
learning-activity and expected-standard item has length at least 3, because
`splitBulletContent` filters items of length 2 or less. -/
theorem C9_min_content_length (rawText : Str) (rows : List (List Str)) :
    (obcTopics rawText).all (fun t => t.subtopics.all (fun s =>
      ((s.knowledge ++ s.skills) ++ s.values).all (fun e => decide (2 < e.length)))) = true ∧
    (cbcTopics rows).all (fun t => t.subtopics.all (fun s =>
      s.specificCompetences.all (fun c =>
        (c.learningActivities ++ c.expectedStandards).all
          (fun e => decide (2 < e.length))))) = true := by
  constructor
  · rw [List.all_eq_true]
    intro t ht
    rw [List.all_eq_true]
    intro s hs
    have hb := obcTopics_bucketsEmpty rawText
    unfold bucketsEmpty at hb
    have h3 := (List.all_eq_true.mp ((List.all_eq_true.mp hb) t ht)) s hs
    simp only [Bool.and_eq_true, List.isEmpty_iff] at h3
    obtain ⟨⟨hk, hsk⟩, hv⟩ := h3
    simp [hk, hsk, hv]
  · exact cbcTopics_lens rows

lemma all_getD {p : α → Bool} {l : List α} (h : l.all p = true) (n : Nat) (d : α)
    (hd : p d = true) : p (l.getD n d) = true := by
  induction l generalizing n with
  | nil => simpa [List.getD] using hd
  | cons a rest ih =>
    simp only [List.all_cons, Bool.and_eq_true] at h
    cases n with
    | zero => simpa [List.getD] using h.1
    | succ m => simpa [List.getD] using ih h.2 m

lemma all_updAt_at {p : α → Bool} {l : List α} (h : l.all p = true) (n : Nat)
    (f : α → α) (d : α) (hf : p (f (l.getD n d)) = true) :
    (updAt l n f).all p = true := by
  induction l generalizing n with
  | nil => simp [updAt]
  | cons a rest ih =>
    simp only [List.all_cons, Bool.and_eq_true] at h
    cases n with
    | zero =>
      simp only [updAt, List.all_cons, Bool.and_eq_true]
      exact ⟨by simpa [List.getD] using hf, h.2⟩
    | succ m =>
      simp only [updAt, List.all_cons, Bool.and_eq_true]
      exact ⟨h.1, ih h.2 m (by simpa [List.getD] using hf)⟩

lemma cbcTopicStage_nodup {st : CState} (h : compDescsNodup st.topics = true)
    (ft : Option Str) : compDescsNodup (cbcTopicStage st ft).topics = true := by
  cases ft with
  | none => rw [cbcTopicStage_none]; exact h
  | some name =>
    cases hf : st.topics.findIdx? (fun t => t.name == name) with
    | some j => rw [cbcTopicStage_reuse hf]; exact h
    | none =>
      rw [cbcTopicStage_new hf]
      simp only [compDescsNodup, List.all_append] at h ⊢
      simp [h]

lemma cbcSubStage_nodup {st : CState} (h : compDescsNodup st.topics = true)
    (fs : Option Str) : compDescsNodup (cbcSubStage st fs).topics = true := by
  cases fs with
  | none => rw [cbcSubStage_none]; exact h
  | some name =>
    cases hct : st.ct with
    | none => rw [cbcSubStage_noct _ hct]; exact h
    | some j =>
      cases hf : ((st.topics.getD j ⟨[], []⟩).subtopics).findIdx?
          (fun s => s.name == name) with
      | some k => rw [cbcSubStage_reuse hct hf]; exact h
      | none =>
        rw [cbcSubStage_new hct hf]
        refine all_updAt h j _ (fun tp htp => ?_)
        simp only [List.all_append] at htp ⊢
        simp [htp]

lemma cbcCompStage_nodup {st : CState} (h : compDescsNodup st.topics = true)
    (fc : Option Str) (ci : Option Nat) (hs : List Str) :
    compDescsNodup (cbcCompStage st fc ci hs).topics = true := by
  cases fc with
  | none => rw [cbcCompStage_none]; exact h
  | some desc =>
    cases hcs : st.cs with
    | none => rw [cbcCompStage_nocs _ _ _ hcs]; exact h
    | some jk =>
      obtain ⟨j, k⟩ := jk
      cases hdup : ((((st.topics.getD j ⟨[], []⟩).subtopics).getD k
          ⟨[], []⟩).specificCompetences).any (fun c => c.description == desc) with
      | true => rw [cbcCompStage_dup _ _ hcs hdup]; exact h
      | false =>
        rw [cbcCompStage_push _ _ hcs hdup]
        have htj : ((st.topics.getD j ⟨[], []⟩).subtopics).all (fun s =>
            decide ((s.specificCompetences.map CComp.description).Nodup)) = true :=
          all_getD h j ⟨[], []⟩ (by rfl)
        refine all_updAt_at h j _ ⟨[], []⟩ ?_
        refine all_updAt_at htj k _ ⟨[], []⟩ ?_
        have hsk := all_getD htj k (⟨[], []⟩ : CSub) (by rfl)
        rw [decide_eq_true_iff] at hsk ⊢
        rw [List.map_append]
        rw [List.nodup_append]
        refine ⟨hsk, by simp, ?_⟩
        intro a ha hb
        simp only [List.map_cons, List.map_nil, List.mem_singleton] at hb
        subst hb
        obtain ⟨c, hc, hcd⟩ := List.mem_map.mp ha
        have := List.any_eq_false.mp hdup c hc
        simp [hcd] at this

lemma cbcRow_nodup {st : CState} (h : compDescsNodup st.topics = true)
    (row : List Str) : compDescsNodup (cbcRow st row).topics = true := by
  unfold cbcRow
  by_cases hlen : row.length < 2
  · simp [hlen, h]
  · simp only [hlen, if_false]
    by_cases hhd : isHeaderRow (row.map extractText) = true
    · simp [hhd, h]
    · have hhd' : isHeaderRow (row.map extractText) = false := by simpa using hhd
      simp only [hhd', Bool.false_eq_true, if_false]
      obtain ⟨ft, fs, fc, ci⟩ := cbcScan (row.map extractText) 0 none none none none
      exact cbcCompStage_nodup (cbcSubStage_nodup (cbcTopicStage_nodup h ft) fs) fc ci row

lemma cbcTopics_nodup (rows : List (List Str)) :
    compDescsNodup (cbcTopics rows) = true := by
  unfold cbcTopics
  have h : ∀ (rs : List (List Str)) (st : CState), compDescsNodup st.topics = true →
      compDescsNodup ((rs.foldl cbcRow st)).topics = true := by
    intro rs
    induction rs with
    | nil => intro st h; exact h
    | cons r rest ih => intro st h; exact ih _ (cbcRow_nodup h r)
  exact h rows initCState rfl

/-- C10: specific-competence descriptions are pairwise distinct within each
subtopic of every CBC tree, and a row whose competence text equals an
already stored description leaves the state untouched (its trailing
learning-activity / expected-standard cells are discarded, not merged). -/
theorem C10_competence_uniqueness (rows : List (List Str)) (st : CState)
    (desc : Str) (j k : Nat) (ci : Option Nat) (hs : List Str)
    (hcs : st.cs = some (j, k))
    (hdup : ((((st.topics.getD j ⟨[], []⟩).subtopics).getD k
        ⟨[], []⟩).specificCompetences).any (fun c => c.description == desc) = true) :
    compDescsNodup (cbcTopics rows) = true ∧
      cbcCompStage st (some desc) ci hs = st :=
  ⟨cbcTopics_nodup rows, cbcCompStage_dup ci hs hcs hdup⟩

/-- C10 witness: the theorem applied to a concrete duplicate-competence
state and table. -/
theorem C10_witness :
    compDescsNodup (cbcTopics [["10.1 T".toList, "10.1.1 S".toList]]) = true ∧
      cbcCompStage
        ⟨[⟨"10.1 T".toList, [⟨"10.1.1 S".toList,
            [⟨"10.1.1.1 D".toList, [], []⟩]⟩]⟩], some 0, some (0, 0)⟩
        (some "10.1.1.1 D".toList) (some 1) ["x".toList, "y".toList, "z".toList] =
      ⟨[⟨"10.1 T".toList, [⟨"10.1.1 S".toList,
          [⟨"10.1.1.1 D".toList, [], []⟩]⟩]⟩], some 0, some (0, 0)⟩ :=
  C10_competence_uniqueness [["10.1 T".toList, "10.1.1 S".toList]]
    ⟨[⟨"10.1 T".toList, [⟨"10.1.1 S".toList,
        [⟨"10.1.1.1 D".toList, [], []⟩]⟩]⟩], some 0, some (0, 0)⟩
    "10.1.1.1 D".toList 0 0 (some 1) ["x".toList, "y".toList, "z".toList]
    (by decide) (by decide)

/-- C1: the half of the containment claim the code actually implements:
a level-3 unit reaching the line parser without an open topic, a level-4
unit without an open subtopic, a table subtopic signal without a current
topic, and a table competence signal without a current subtopic are all
discarded — the accumulated topic list is unchanged.  The prefix-matching
half of the claim is false: no code compares a child's numeric prefix with
its parent's (see `C1_counterexample`, where `11.2.1` is attached under
topic `10.1`). -/
theorem C1_orphan_discard :
    (∀ (st : OState) (l num txt : Str), st.hasCT = false →
        extract l = some (num, txt) → segCount num = 3 →
        (obcLine st l).topics = st.topics) ∧
    (∀ (st : OState) (l num txt : Str), st.hasCS = false →
        extract l = some (num, txt) → segCount num = 4 →
        (obcLine st l).topics = st.topics) ∧
    (∀ (st : CState) (fs : Option Str), st.ct = none →
        (cbcSubStage st fs).topics = st.topics) ∧
    (∀ (st : CState) (fc : Option Str) (ci : Option Nat) (hs : List Str),
        st.cs = none → (cbcCompStage st fc ci hs).topics = st.topics) := by
  refine ⟨?_, ?_, ?_, ?_⟩
  · intro st l num txt hct hext hseg
    have hhd := extract_not_header hext
    by_cases hno : numberOnly l = true
    · rw [obcLine_numonly hhd hno]
    · rw [obcLine_sub_orphan hhd (by simpa using hno) hext hseg hct]
  · intro st l num txt hcs hext hseg
    have hhd := extract_not_header hext
    by_cases hno : numberOnly l = true
    · rw [obcLine_numonly hhd hno]
    · rw [obcLine_out_orphan hhd (by simpa using hno) hext hseg hcs]
  · intro st fs hct
    rw [cbcSubStage_noct fs hct]
  · intro st fc ci hs hcs
    rw [cbcCompStage_nocs fc ci hs hcs]

/-- C1 counterexample: the line parser attaches subtopic `11.2.1 Waves`
under topic `10.1 Motion` even though the child's first two dot-separated
segments (`11.2`) differ from the parent's (`10.1`) — no containment check
exists. -/
theorem C1_counterexample :
    obcTopics "10.1 Motion\n11.2.1 Waves".toList =
      [⟨"10.1 Motion".toList, [⟨"11.2.1 Waves".toList, [], [], [], []⟩]⟩] ∧
    "11.2.1 Waves".toList.take 4 ≠ "10.1 Motion".toList.take 4 := by decide

/-- C1 witness: the amended theorem applied at concrete orphan inputs. -/
theorem C1_orphan_discard_witness :
    (obcLine initOState "10.1.1 Units".toList).topics = initOState.topics ∧
    (obcLine initOState "10.1.1.1 Distinguish".toList).topics = initOState.topics ∧
    (cbcSubStage initCState (some "10.1.1 S".toList)).topics = initCState.topics ∧
    (cbcCompStage initCState (some "10.1.1.1 C".toList) (some 0)
      ["a".toList]).topics = initCState.topics :=
  ⟨C1_orphan_discard.1 initOState "10.1.1 Units".toList "10.1.1".toList "Units".toList
      rfl (by decide) (by decide),
   C1_orphan_discard.2.1 initOState "10.1.1.1 Distinguish".toList "10.1.1.1".toList
      "Distinguish".toList rfl (by decide) (by decide),
   C1_orphan_discard.2.2.1 initCState (some "10.1.1 S".toList) rfl,
   C1_orphan_discard.2.2.2 initCState (some "10.1.1.1 C".toList) (some 0)
      ["a".toList] rfl⟩

/-! ### Segment counting for `getNumberingInfo` -/

lemma chunk_dotCount {w : Str} {n : Nat} (h : dotLen w = some n) :
    dotCount (w.take n) = 1 := by
  obtain ⟨run, hsh, hdig, _⟩ := dotLen_shape h
  rw [hsh, dotCount_cons, if_pos rfl, dotCount_digits hdig]

lemma numLen_ne_nil {s : Str} {L : Nat} (h : numLen s = some L) :
    s.isEmpty = false := by
  cases s with
  | nil => simp [numLen] at h
  | cons c rest => rfl

lemma numLen_segCount {s : Str} {L : Nat} (h : numLen s = some L) :
    2 ≤ segCount (s.take L) ∧ segCount (s.take L) ≤ 4 := by
  have hd0 : dotCount (s.takeWhile Char.isDigit) = 0 :=
    dotCount_digits (fun c hc => List.mem_takeWhile_imp hc)
  have htk : s.take (s.takeWhile Char.isDigit).length = s.takeWhile Char.isDigit :=
    take_tw_len Char.isDigit s
  unfold numLen at h
  by_cases hde : (s.takeWhile Char.isDigit).isEmpty
  · simp [hde] at h
  simp only [hde, Bool.false_eq_true, if_false] at h
  set dl := (s.takeWhile Char.isDigit).length with hdl
  cases h1 : dotLen (s.drop dl) with
  | none => simp [h1] at h
  | some n1 =>
    simp only [h1] at h
    have hc1 : dotCount ((s.drop dl).take n1) = 1 := chunk_dotCount h1
    cases h2 : dotLen (s.drop (dl + n1)) with
    | none =>
      simp only [h2, Option.some.injEq] at h
      subst h
      unfold segCount
      rw [List.take_add, dotCount_app, htk, hd0]
      omega
    | some n2 =>
      simp only [h2] at h
      have hdd1 : (s.drop dl).drop n1 = s.drop (dl + n1) := by
        rw [List.drop_drop]
      have hc2 : dotCount (((s.drop dl).drop n1).take n2) = 1 := by
        rw [hdd1]; exact chunk_dotCount h2
      cases h3 : dotLen (s.drop (dl + n1 + n2)) with
      | none =>
        simp only [h3, Option.some.injEq] at h
        subst h
        unfold segCount
        rw [show dl + n1 + n2 = dl + (n1 + n2) from by omega, List.take_add,
          List.take_add, dotCount_app, dotCount_app, htk, hd0]
        omega
      | some n3 =>
        simp only [h3, Option.some.injEq] at h
        subst h
        have hdd2 : ((s.drop dl).drop n1).drop n2 = s.drop (dl + n1 + n2) := by
          rw [List.drop_drop, List.drop_drop, ← Nat.add_assoc]
        have hc3 : dotCount ((((s.drop dl).drop n1).drop n2).take n3) = 1 := by
          rw [hdd2]; exact chunk_dotCount h3
        unfold segCount
        rw [show dl + n1 + n2 + n3 = dl + (n1 + (n2 + n3)) from by omega,
          List.take_add, List.take_add, List.take_add, dotCount_app, dotCount_app,
          dotCount_app, htk, hd0]
        omega

/-- C4: whenever a line or cell text begins with a dot-separated numbering
token, `getNumberingInfo` reports as `level` the segment count of the
matched token, which is always between 2 and 4 (2 → Topic, 3 → Subtopic,
4 → Outcome candidate).  The "any other count is unrecognized prose" half
of the claim is false: the regex stops after four segments, so a token
with five or more segments is truncated to its first four segments and
classified level 4 rather than rejected (see `C4_counterexample`). -/
theorem C4_level_equals_segments (text : Str) (L : Nat)
    (h : numLen text = some L) :
    getNumberingInfo text = ⟨segCount (text.take L), some (text.take L), text⟩ ∧
    2 ≤ segCount (text.take L) ∧ segCount (text.take L) ≤ 4 := by
  refine ⟨?_, numLen_segCount h⟩
  simp [getNumberingInfo, numLen_ne_nil h, h]

/-- C4 counterexample: a five-segment token is not treated as prose — the
cell classifier reports level 4 (truncating to `10.1.1.1`), and the line
parser builds an Outcome node from a five-segment line. -/
theorem C4_counterexample :
    getNumberingInfo "10.1.1.1.1 Depth".toList =
      ⟨4, some "10.1.1.1".toList, "10.1.1.1.1 Depth".toList⟩ ∧
    obcTopics "10.1 A\n10.1.1 B\n10.1.1.1.1 C".toList =
      [⟨"10.1 A".toList,
        [⟨"10.1.1 B".toList, ["10.1.1.1 .1 C".toList], [], [], []⟩]⟩] := by decide

/-- C4 witness: the theorem applied at a concrete two-segment cell text. -/
theorem C4_witness :
    getNumberingInfo "10.1 Algebra".toList =
      ⟨segCount ("10.1 Algebra".toList.take 4), some ("10.1 Algebra".toList.take 4),
        "10.1 Algebra".toList⟩ ∧
    2 ≤ segCount ("10.1 Algebra".toList.take 4) ∧
      segCount ("10.1 Algebra".toList.take 4) ≤ 4 :=
  C4_level_equals_segments "10.1 Algebra".toList 4 (by decide)

/-! ### Characterisation of the cell signal scan -/

lemma cbcScan_go (cells : List Str) : ∀ (i : Nat) (ft fs fc : Option Str)
    (ci : Option Nat),
    cbcScan cells i ft fs fc ci =
      (ft.or (cells.find? (fun t => (getNumberingInfo t).level == 2)),
       fs.or (cells.find? (fun t => (getNumberingInfo t).level == 3)),
       (match fc with
        | some x => ((some x : Option Str), ci)
        | none =>
          match cells.findIdx? (fun t => (getNumberingInfo t).level == 4) i with
          | some d => (cells.find? (fun t => (getNumberingInfo t).level == 4),
              some d)
          | none => (none, ci))) := by
  induction cells with
  | nil =>
    intro i ft fs fc ci
    cases fc <;> simp [cbcScan, List.findIdx?]
  | cons t rest ih =>
    intro i ft fs fc ci
    by_cases h2 : ((getNumberingInfo t).level == 2) = true
    · have h3 : ((getNumberingInfo t).level == 3) = false := by
        rw [beq_iff_eq] at h2
        rw [beq_eq_false_iff_ne]
        omega
      have h4 : ((getNumberingInfo t).level == 4) = false := by
        rw [beq_iff_eq] at h2
        rw [beq_eq_false_iff_ne]
        omega
      cases ft with
      | none =>
        rw [show cbcScan (t :: rest) i none fs fc ci =
          cbcScan rest (i + 1) (some t) fs fc ci from by simp [cbcScan, h2]]
        rw [ih]
        simp only [List.find?_cons, List.findIdx?_cons, h2, h3, h4, if_true,
          Bool.false_eq_true, if_false, Option.or]
      | some x =>
        rw [show cbcScan (t :: rest) i (some x) fs fc ci =
          cbcScan rest (i + 1) (some x) fs fc ci from by simp [cbcScan, h2, h3, h4]]
        rw [ih]
        simp only [List.find?_cons, List.findIdx?_cons, h2, h3, h4, if_true,
          Bool.false_eq_true, if_false, Option.or]
    · have h2' : ((getNumberingInfo t).level == 2) = false := by simpa using h2
      by_cases h3 : ((getNumberingInfo t).level == 3) = true
      · have h4 : ((getNumberingInfo t).level == 4) = false := by
          rw [beq_iff_eq] at h3
          rw [beq_eq_false_iff_ne]
          omega
        cases fs with
        | none =>
          rw [show cbcScan (t :: rest) i ft none fc ci =
            cbcScan rest (i + 1) ft (some t) fc ci from by simp [cbcScan, h2', h3]]
          rw [ih]
          simp only [List.find?_cons, List.findIdx?_cons, h2', h3, h4, if_true,
            Bool.false_eq_true, if_false, Option.or]
        | some x =>
          rw [show cbcScan (t :: rest) i ft (some x) fc ci =
            cbcScan rest (i + 1) ft (some x) fc ci from by
              simp [cbcScan, h2', h3, h4]]
          rw [ih]
          simp only [List.find?_cons, List.findIdx?_cons, h2', h3, h4, if_true,
            Bool.false_eq_true, if_false, Option.or]
      · have h3' : ((getNumberingInfo t).level == 3) = false := by simpa using h3
        by_cases h4 : ((getNumberingInfo t).level == 4) = true
        · cases fc with
          | none =>
            rw [show cbcScan (t :: rest) i ft fs none ci =
              cbcScan rest (i + 1) ft fs (some t) (some i) from by
                simp [cbcScan, h2', h3', h4]]
            rw [ih]
            simp only [List.find?_cons, List.findIdx?_cons, h2', h3', h4, if_true,
              Bool.false_eq_true, if_false, Option.or]
          | some x =>
            rw [show cbcScan (t :: rest) i ft fs (some x) ci =
              cbcScan rest (i + 1) ft fs (some x) ci from by
                simp [cbcScan, h2', h3', h4]]
            rw [ih]
            simp only [List.find?_cons, List.findIdx?_cons, h2', h3', h4, if_true,
              Bool.false_eq_true, if_false, Option.or]
        · have h4' : ((getNumberingInfo t).level == 4) = false := by simpa using h4
          rw [show cbcScan (t :: rest) i ft fs fc ci =
            cbcScan rest (i + 1) ft fs fc ci from by simp [cbcScan, h2', h3', h4']]
          rw [ih]
          simp only [List.find?_cons, List.findIdx?_cons, h2', h3', h4', if_true,
            Bool.false_eq_true, if_false, Option.or]

/-- C5: in each processed table row, the Topic signal is the first cell
whose numbering token has 2 segments, the Subtopic signal the first with 3,
the competence signal the first with 4 (with its cell index); and a found
competence is stored with the bullet-split contents of the cells at the
competence index plus 1 and plus 2 (when they exist) as its
learningActivities and expectedStandards. -/
theorem C5_cell_signals :
    (∀ (cellTexts : List Str),
      cbcScan cellTexts 0 none none none none =
        (cellTexts.find? (fun t => (getNumberingInfo t).level == 2),
         cellTexts.find? (fun t => (getNumberingInfo t).level == 3),
         cellTexts.find? (fun t => (getNumberingInfo t).level == 4),
         cellTexts.findIdx? (fun t => (getNumberingInfo t).level == 4))) ∧
    (∀ (st : CState) (desc : Str) (i j k : Nat) (hs : List Str),
      st.cs = some (j, k) →
      ((((st.topics.getD j ⟨[], []⟩).subtopics).getD k
          ⟨[], []⟩).specificCompetences).any (fun c => c.description == desc) = false →
      cbcCompStage st (some desc) (some i) hs =
        ⟨updAt st.topics j
          (fun t => { t with subtopics := (updAt t.subtopics k
            (fun s => { s with specificCompetences := s.specificCompetences ++
              [⟨desc,
                (if i + 1 < hs.length
                  then splitBulletContent (hs.getD (i + 1) []) else []),
                (if i + 2 < hs.length
                  then splitBulletContent (hs.getD (i + 2) []) else [])⟩] })) }),
          st.ct, st.cs⟩) := by
  constructor
  · intro cellTexts
    rw [cbcScan_go]
    cases hr : cellTexts.findIdx? (fun t => (getNumberingInfo t).level == 4) with
    | none =>
      have hf : cellTexts.find? (fun t => (getNumberingInfo t).level == 4) = none := by
        rw [List.find?_eq_none]
        intro x hx hpx
        rw [List.findIdx?_eq_none_iff] at hr
        exact absurd hpx (by simpa using hr x hx)
      simp [hf]
    | some d => simp
  · intro st desc i j k hs hcs hdup
    have h := cbcCompStage_push (some i) hs hcs hdup
    simpa using h

/-- C5 witness: the theorem applied to a concrete row and a concrete
competence insertion. -/
theorem C5_cell_signals_witness :
    cbcScan ["10.1 T".toList, "10.1.1 S".toList, "10.1.1.1 C".toList] 0
        none none none none =
      (some "10.1 T".toList, some "10.1.1 S".toList, some "10.1.1.1 C".toList,
        some 2) ∧
    cbcCompStage ⟨[⟨"10.1 T".toList, [⟨"10.1.1 S".toList, []⟩]⟩], some 0, some (0, 0)⟩
        (some "10.1.1.1 C".toList) (some 2)
        ["10.1 T".toList, "10.1.1 S".toList, "10.1.1.1 C".toList, "<li>abc</li>".toList] =
      ⟨[⟨"10.1 T".toList, [⟨"10.1.1 S".toList,
          [⟨"10.1.1.1 C".toList, ["abc".toList], []⟩]⟩]⟩], some 0, some (0, 0)⟩ := by
  constructor
  · have h := (C5_cell_signals.1
      ["10.1 T".toList, "10.1.1 S".toList, "10.1.1.1 C".toList])
    rw [h]
    decide
  · have h := C5_cell_signals.2
      ⟨[⟨"10.1 T".toList, [⟨"10.1.1 S".toList, []⟩]⟩], some 0, some (0, 0)⟩
      "10.1.1.1 C".toList 2 0 0
      ["10.1 T".toList, "10.1.1 S".toList, "10.1.1.1 C".toList, "<li>abc</li>".toList]
      (by decide) (by decide)
    rw [h]
    decide

/-- C7: a level-2 signal appends a new Topic and closes the open
Subtopic/Outcome context in the line parser and in the table parser's
new-topic branch; but in the table parser's reuse branch (same topic name
already present) only the current-topic pointer is redirected — the
current-Subtopic pointer is NOT cleared, contrary to the claim's "the
context-closing applies in the reuse case as well" (see
`C7_counterexample`). -/
theorem C7_topic_transition :
    (∀ (st : OState) (l num txt : Str), numberOnly l = false →
        extract l = some (num, txt) → segCount num = 2 →
        obcLine st l =
          ⟨st.topics ++ [⟨trim (num ++ ' ' :: txt), []⟩], true, false, st.pending⟩) ∧
    (∀ (st : CState) (name : Str),
        st.topics.findIdx? (fun t => t.name == name) = none →
        cbcTopicStage st (some name) =
          { st with topics := st.topics ++ [⟨name, []⟩],
                    ct := some st.topics.length, cs := none }) ∧
    (∀ (st : CState) (name : Str) (j : Nat),
        st.topics.findIdx? (fun t => t.name == name) = some j →
        cbcTopicStage st (some name) = { st with ct := some j }) := by
  refine ⟨?_, ?_, ?_⟩
  · intro st l num txt hno hext hseg
    exact obcLine_topic (extract_not_header hext) hno hext hseg
  · intro st name hf
    exact cbcTopicStage_new hf
  · intro st name j hf
    exact cbcTopicStage_reuse hf

/-- C7 counterexample: reusing topic `10.1 T` leaves the stale subtopic
pointer in place, so the next row's competence is attached under the old
subtopic even though the reuse row carried no subtopic signal. -/
theorem C7_counterexample :
    (cbcTopicStage ⟨[⟨"10.1 T".toList, [⟨"10.1.1 S".toList, []⟩]⟩], some 0, some (0, 0)⟩
        (some "10.1 T".toList)).cs = some (0, 0) ∧
    parseCBCSyllabusTable
        [["10.1 T".toList, "10.1.1 S".toList],
         ["10.1 T".toList, "10.1.1.1 C".toList]] "S".toList =
      some ⟨"S".toList, ['c','b','c'], ['F','o','r','m',' ','1'],
        [⟨"10.1 T".toList, [⟨"10.1.1 S".toList,
          [⟨"10.1.1.1 C".toList, [], []⟩]⟩]⟩]⟩ := by decide

/-- C7 witness: the theorem applied at concrete level-2 inputs for all
three branches. -/
theorem C7_topic_transition_witness :
    obcLine initOState "10.1 Motion".toList =
      ⟨[⟨"10.1 Motion".toList, []⟩], true, false, none⟩ ∧
    cbcTopicStage initCState (some "10.1 T".toList) =
      ⟨[⟨"10.1 T".toList, []⟩], some 0, none⟩ ∧
    cbcTopicStage ⟨[⟨"10.1 T".toList, []⟩], none, some (0, 0)⟩
        (some "10.1 T".toList) =
      ⟨[⟨"10.1 T".toList, []⟩], some 0, some (0, 0)⟩ := by
  refine ⟨?_, ?_, ?_⟩
  · have h := C7_topic_transition.1 initOState "10.1 Motion".toList
      "10.1".toList "Motion".toList (by decide) (by decide) (by decide)
    rw [h]
    decide
  · have h := C7_topic_transition.2.1 initCState "10.1 T".toList (by decide)
    rw [h]
    decide
  · have h := C7_topic_transition.2.2
      ⟨[⟨"10.1 T".toList, []⟩], none, some (0, 0)⟩ "10.1 T".toList 0 (by decide)
    rw [h]

end EduGen
